import Mathlib

/-!
Verification of the `bkmap` crate (`src/lib.rs`): a BK-tree map over a
pluggable metric, with a single-row Levenshtein metric, insertion with a
merge callback, and a radius-bounded fuzzy search iterator.

The definitions below are a shallow embedding of the Rust source:
* `levInner` / `levRows` / `LevenshteinMetric.distance` embed
  `LevenshteinMetric::distance` (the in-place single-row DP);
* `BKNode` / `BKMap.insert_and_modify` / `BKMap.fuzzy_search_distance` /
  `BKFuzzy.next` embed the tree, insertion and the radius search.

Reference definitions (`editDist`, `weightedEditDist`, brute-force search)
are stated separately and compared with the embedded code.
-/

namespace BKMapVerify

/-! ## Levenshtein metric: embedding of `LevenshteinMetric::distance` -/

/-- Embeds the inner loop of `LevenshteinMetric::distance`: one row of the DP.
The argument list holds the `(b element, cache entry)` pairs produced by
`b.iter().zip(&mut self.cache)`; `last` and `result` are the loop-carried
variables.  Returns the updated cache contents together with the final
`result`. -/
def levInner {α : Type} [DecidableEq α] (ai : α) :
    List (α × Nat) → Nat → Nat → List Nat × Nat
  | [], _, result => ([], result)
  | (bj, cj) :: rest, last, result =>
    let r := min (min (last + (if ai = bj then 0 else 1)) (cj + 1)) (result + 1)
    let next := levInner ai rest cj r
    (r :: next.1, next.2)

/-- Embeds the outer loop of `LevenshteinMetric::distance`
(`for (mut last, a) in a.iter().enumerate()`): `i` is the enumeration index,
`cache` the current scratch row, `result` the running result (overwritten with
`last + 1` at the start of each iteration). -/
def levRows {α : Type} [DecidableEq α] (b : List α) :
    List α → Nat → List Nat → Nat → List Nat × Nat
  | [], _, cache, result => (cache, result)
  | ai :: arest, i, cache, _ =>
    let step := levInner ai (b.zip cache) i (i + 1)
    levRows b arest (i + 1) step.1 step.2

/-- Embeds the struct `LevenshteinMetric`: the reusable scratch row. -/
structure LevenshteinMetric (α : Type) where
  cache : List Nat

/-- Embeds `LevenshteinMetric::distance`.  The incoming cache is cleared and
refilled with `1..=b.len()` before use (`self.cache.clear();
self.cache.extend(1..=b.len())`), so the result is a pure function of `a` and
`b`; the returned metric carries the scratch row as left by the call. -/
def LevenshteinMetric.distance {α : Type} [DecidableEq α]
    (_m : LevenshteinMetric α) (a b : List α) : Nat × LevenshteinMetric α :=
  let run := levRows b a 0 (List.range' 1 b.length) b.length
  (run.2, ⟨run.1⟩)

/-- The value computed by `LevenshteinMetric::distance`, as a pure function. -/
def levDistance {α : Type} [DecidableEq α] (a b : List α) : Nat :=
  (LevenshteinMetric.distance ⟨[]⟩ a b).1

/-! ## Reference definitions for edit distance -/

/-- Reference definition (from the spec): the naive recursive edit distance
with unit costs — minimum number of insertions, deletions and substitutions
transforming `a` into `b`, where equal elements cost 0. -/
def editDist {α : Type} [DecidableEq α] : List α → List α → Nat
  | [], ys => ys.length
  | xs, [] => xs.length
  | x :: xs, y :: ys =>
    min (editDist xs ys + (if x = y then 0 else 1))
      (min (editDist xs (y :: ys) + 1) (editDist (x :: xs) ys + 1))
termination_by xs ys => xs.length + ys.length
decreasing_by all_goals simp [List.length_cons] <;> omega

/-- Modelled from the spec: weighted edit distance with insertion cost `I`,
deletion cost `D` and substitution cost `S` (spec §4.1).  The crate's
`Levenshtein` / `LevenshteinMetric` expose no such configuration; this
reference definition exists to compare the code against the spec's words. -/
def weightedEditDist {α : Type} [DecidableEq α] (I D S : Nat) :
    List α → List α → Nat
  | [], ys => I * ys.length
  | xs, [] => D * xs.length
  | x :: xs, y :: ys =>
    min (weightedEditDist I D S xs ys + (if x = y then 0 else S))
      (min (weightedEditDist I D S xs (y :: ys) + D)
        (weightedEditDist I D S (x :: xs) ys + I))
termination_by xs ys => xs.length + ys.length
decreasing_by all_goals simp [List.length_cons] <;> omega

theorem editDist_nil_left {α : Type} [DecidableEq α] (ys : List α) :
    editDist [] ys = ys.length := by
  cases ys <;> simp [editDist]

theorem editDist_nil_right {α : Type} [DecidableEq α] (xs : List α) :
    editDist xs [] = xs.length := by
  cases xs <;> simp [editDist]

theorem editDist_cons_cons {α : Type} [DecidableEq α] (x y : α) (xs ys : List α) :
    editDist (x :: xs) (y :: ys) =
      min (editDist xs ys + (if x = y then 0 else 1))
        (min (editDist xs (y :: ys) + 1) (editDist (x :: xs) ys + 1)) := by
  simp [editDist]

theorem editDist_self {α : Type} [DecidableEq α] (a : List α) :
    editDist a a = 0 := by
  induction a with
  | nil => simp [editDist]
  | cons x xs ih => rw [editDist_cons_cons]; simp [ih]

theorem editDist_snoc_nil {α : Type} [DecidableEq α] (p : List α) (x : α) :
    editDist (p ++ [x]) [] = p.length + 1 := by
  simp [editDist_nil_right]

theorem editDist_nil_snoc {α : Type} [DecidableEq α] (q : List α) (y : α) :
    editDist [] (q ++ [y]) = q.length + 1 := by
  simp [editDist_nil_left]

/-- The edit-distance recurrence also holds at the tails of both lists; this is
the form used by the row-oriented dynamic program. -/
theorem editDist_snoc_snoc {α : Type} [DecidableEq α] (x y : α) (p : List α) :
    ∀ q : List α, editDist (p ++ [x]) (q ++ [y]) =
      min (editDist p q + (if x = y then 0 else 1))
        (min (editDist p (q ++ [y]) + 1) (editDist (p ++ [x]) q + 1)) := by
  induction p with
  | nil =>
    intro q
    induction q with
    | nil =>
      by_cases hxy : x = y <;>
        simp [editDist_cons_cons, editDist_nil_left, editDist_nil_right, hxy]
    | cons z q' ihq =>
      simp only [List.cons_append, List.nil_append] at ihq ⊢
      rw [editDist_cons_cons x z [] (q' ++ [y]), ihq,
        editDist_cons_cons x z [] q']
      simp only [editDist_nil_left, List.length_append, List.length_cons,
        List.length_nil]
      split_ifs <;> (apply le_antisymm <;> simp only [le_min_iff, min_le_iff] <;> omega)
  | cons w p' ihp =>
    intro q
    induction q with
    | nil =>
      have h := ihp []
      simp only [List.cons_append, List.nil_append] at h ⊢
      rw [editDist_cons_cons w y (p' ++ [x]) [], h,
        editDist_cons_cons w y p' []]
      simp only [editDist_nil_right, editDist_nil_left, List.length_append,
        List.length_cons, List.length_nil]
      split_ifs <;> (apply le_antisymm <;> simp only [le_min_iff, min_le_iff] <;> omega)
    | cons z q' ihq =>
      have h1 := ihp q'
      have h2 := ihp (z :: q')
      simp only [List.cons_append, List.nil_append] at h1 h2 ihq ⊢
      rw [editDist_cons_cons w z (p' ++ [x]) (q' ++ [y]), h1, h2, ihq,
        editDist_cons_cons w z p' q', editDist_cons_cons w z p' (q' ++ [y]),
        editDist_cons_cons w z (p' ++ [x]) q']
      split_ifs <;> (apply le_antisymm <;> simp only [le_min_iff, min_le_iff] <;> omega)

/-- The scratch row of the DP after processing the rows for prefix `p`:
entry `j` holds the edit distance from `p` to the first `j+1` elements of
`b`. -/
def levRow {α : Type} [DecidableEq α] (p b : List α) : List Nat :=
  (List.range b.length).map fun j => editDist p (b.take (j + 1))

/-- One pass of the inner loop turns the row for `p` into the row for
`p ++ [ai]`, threading the diagonal (`last`) and left (`result`)
neighbours. -/
theorem levInner_spec {α : Type} [DecidableEq α] (ai : α) (p : List α) :
    ∀ (rest q : List α),
      levInner ai
        (rest.zip ((List.range rest.length).map
          fun j => editDist p (q ++ rest.take (j + 1))))
        (editDist p q) (editDist (p ++ [ai]) q)
      = ((List.range rest.length).map
          fun j => editDist (p ++ [ai]) (q ++ rest.take (j + 1)),
         editDist (p ++ [ai]) (q ++ rest)) := by
  intro rest
  induction rest with
  | nil => intro q; simp [levInner]
  | cons bj rest' ih =>
    intro q
    rw [List.length_cons, List.range_succ_eq_map]
    simp only [List.map_cons, List.map_map, List.zip_cons_cons, levInner]
    have htake : ∀ j : Nat, (bj :: rest').take (j + 1) = bj :: rest'.take j := by
      intro j; rfl
    have hfun : ((fun j => editDist p (q ++ (bj :: rest').take (j + 1))) ∘ Nat.succ)
        = fun j => editDist p ((q ++ [bj]) ++ rest'.take (j + 1)) := by
      funext j
      simp [Function.comp, htake, List.append_assoc]
    have hr : min (min (editDist p q + (if ai = bj then 0 else 1))
          (editDist p (q ++ (bj :: rest').take (0 + 1)) + 1))
          (editDist (p ++ [ai]) q + 1)
        = editDist (p ++ [ai]) (q ++ [bj]) := by
      rw [editDist_snoc_snoc, htake, List.take_zero, min_assoc]
    rw [hfun, hr]
    have ih' := ih (q ++ [bj])
    simp only [List.zip] at ih'
    simp only [htake, List.take_zero]
    rw [ih']
    simp [Function.comp_def, htake, List.append_assoc]

/-- The outer loop invariant: starting from the row and result for a processed
prefix `p`, running the remaining rows produces the row and result for the
whole list. -/
theorem levRows_spec {α : Type} [DecidableEq α] (b : List α) :
    ∀ (arest p : List α),
      levRows b arest p.length (levRow p b) (editDist p b)
        = (levRow (p ++ arest) b, editDist (p ++ arest) b) := by
  intro arest
  induction arest with
  | nil => intro p; simp [levRows]
  | cons ai arest' ih =>
    intro p
    have hstep := levInner_spec ai p b []
    simp only [List.nil_append, editDist_nil_right, editDist_snoc_nil,
      List.length_append, List.length_cons, List.length_nil] at hstep
    have hstep' : levInner ai (b.zip (levRow p b)) p.length (p.length + 1)
        = (levRow (p ++ [ai]) b, editDist (p ++ [ai]) b) := hstep
    simp only [levRows, hstep']
    have h2 := ih (p ++ [ai])
    simp only [List.length_append, List.length_cons, List.length_nil,
      List.append_assoc, List.cons_append, List.nil_append] at h2
    exact h2

/-- The single-row dynamic program agrees with the naive recursion. -/
theorem levRows_eq_editDist {α : Type} [DecidableEq α] (a b : List α) :
    (levRows b a 0 (List.range' 1 b.length) b.length).2 = editDist a b := by
  have hrow : List.range' 1 b.length = levRow [] b := by
    rw [levRow, List.range'_eq_map_range]
    apply List.map_congr_left
    intro j hj
    rw [List.mem_range] at hj
    rw [editDist_nil_left, List.length_take]
    omega
  have hres : b.length = editDist [] b := (editDist_nil_left b).symm
  have h := levRows_spec b a []
  simp only [List.length_nil, List.nil_append] at h
  rw [hrow, hres, h]

theorem distance_fst_eq_editDist {α : Type} [DecidableEq α]
    (m : LevenshteinMetric α) (a b : List α) :
    (m.distance a b).1 = editDist a b :=
  levRows_eq_editDist a b

/-- The unit-cost instance of the weighted edit distance is the plain edit
distance. -/
theorem weightedEditDist_unit {α : Type} [DecidableEq α] :
    ∀ xs ys : List α, weightedEditDist 1 1 1 xs ys = editDist xs ys := by
  intro xs
  induction xs with
  | nil => intro ys; simp [weightedEditDist, editDist_nil_left]
  | cons x xs' ihx =>
    intro ys
    induction ys with
    | nil => simp [weightedEditDist, editDist_nil_right]
    | cons y ys' ihy =>
      rw [editDist_cons_cons, weightedEditDist, ihx ys', ihx (y :: ys'), ihy]

/-- Claim C4: for all sequences `a` and `b`, `LevenshteinMetric::distance`
computes exactly the naive recursive edit distance (insertions, deletions,
substitutions at unit cost, equal elements free), and in particular
`distance(a, a) = 0`. -/
theorem claim_C4_distance_eq_editDist {α : Type} [DecidableEq α]
    (m : LevenshteinMetric α) (a b : List α) :
    (m.distance a b).1 = editDist a b ∧ (m.distance a a).1 = 0 :=
  ⟨distance_fst_eq_editDist m a b,
    (distance_fst_eq_editDist m a a).trans (editDist_self a)⟩

/-- Claim C5, counterexample: the metric does not compute the weighted edit
distance for costs `I = 2, D = 1, S = 5`; already on the pair
`("", [0,1,2])` the code returns `3`, not `3·I = 6`.  The `Levenshtein`
builder and `LevenshteinMetric` expose no cost parameters at all. -/
theorem claim_C5_cex_no_weighted_costs :
    levDistance ([] : List Nat) [0, 1, 2] ≠
      weightedEditDist 2 1 5 ([] : List Nat) [0, 1, 2] := by
  have h1 : levDistance ([] : List Nat) [0, 1, 2] = 3 := rfl
  have h2 : weightedEditDist 2 1 5 ([] : List Nat) [0, 1, 2] = 6 := by
    simp [weightedEditDist]
  omega

/-- Claim C5, amended: the metric has no configurable costs; it always
computes the unit-cost (`I = D = S = 1`) weighted edit distance, so
`distance("", [0,1,2]) = 3 = 3·1`. -/
theorem claim_C5_amended_unit_costs {α : Type} [DecidableEq α]
    (m : LevenshteinMetric α) (a b : List α) :
    (m.distance a b).1 = weightedEditDist 1 1 1 a b ∧
      levDistance ([] : List Nat) [0, 1, 2] = 3 * 1 :=
  ⟨(distance_fst_eq_editDist m a b).trans (weightedEditDist_unit a b).symm, rfl⟩

/-- Claim C9: the value returned by `LevenshteinMetric::distance` (and the
scratch state it leaves behind) is independent of whatever cache contents a
previous call left: the cache is cleared and refilled at the start of every
call. -/
theorem claim_C9_distance_ignores_cache {α : Type} [DecidableEq α]
    (m₁ m₂ : LevenshteinMetric α) (a b : List α) :
    m₁.distance a b = m₂.distance a b := rfl

/-! ## The BK-tree: embedding of `BKNode` and `BKMap` -/

/-- Embeds the struct `BKNode`: edge distance to the parent (the Rust field
has type `NonZero<usize>`; the root stores the placeholder `1`), key, value
and the ordered children list. -/
inductive BKNode (K V : Type) : Type where
  | mk (dist : Nat) (key : K) (value : V) (children : List (BKNode K V))

def BKNode.dist {K V : Type} : BKNode K V → Nat
  | .mk d _ _ _ => d

def BKNode.key {K V : Type} : BKNode K V → K
  | .mk _ k _ _ => k

def BKNode.value {K V : Type} : BKNode K V → V
  | .mk _ _ v _ => v

def BKNode.children {K V : Type} : BKNode K V → List (BKNode K V)
  | .mk _ _ _ cs => cs

mutual

/-- Embeds `BKNode::len`: the number of entries in the subtree (the sum over
the children is unfolded into the mutual helper `lenList`). -/
def BKNode.len {K V : Type} : BKNode K V → Nat
  | .mk _ _ _ cs => lenList cs + 1

/-- Sum of `BKNode.len` over a list of nodes. -/
def lenList {K V : Type} : List (BKNode K V) → Nat
  | [] => 0
  | c :: cs => BKNode.len c + lenList cs

end

mutual

/-- All `(key, value)` entries stored in the subtree, in preorder. -/
def BKNode.toList {K V : Type} : BKNode K V → List (K × V)
  | .mk _ k v cs => (k, v) :: toListList cs

/-- Concatenation of `BKNode.toList` over a list of nodes. -/
def toListList {K V : Type} : List (BKNode K V) → List (K × V)
  | [] => []
  | c :: cs => BKNode.toList c ++ toListList cs

end

/-- Embeds `BKNode::children_around`: the contiguous run of children whose
edge distance lies in the saturating window `[dist - radius, dist + radius]`,
obtained by `skip_while` / `take_while` over the sorted children list. -/
def BKNode.children_around {K V : Type} (n : BKNode K V) (dist radius : Nat) :
    List (BKNode K V) :=
  (n.children.dropWhile fun c => c.dist < dist - radius).takeWhile
    fun c => c.dist ≤ dist + radius

mutual

/-- Embeds `BKNode::shrink_to_fit`: recursively shrinks every child list's
allocation; the structure itself is untouched. -/
def BKNode.shrink_to_fit {K V : Type} : BKNode K V → BKNode K V
  | .mk d k v cs => .mk d k v (shrinkList cs)

def shrinkList {K V : Type} : List (BKNode K V) → List (BKNode K V)
  | [] => []
  | c :: cs => BKNode.shrink_to_fit c :: shrinkList cs

end

mutual

/-- Embeds the loop of `BKMap::insert_and_modify` from a given node: compute
`dist = metric.distance(&key, &node.key)`; on `dist == 0` invoke the callback
on the stored value, otherwise search the sorted children.  Besides the
updated node it returns the list of `(subject, other)` argument pairs the
`modify` callback was invoked with, so that the `FnOnce` effect is visible. -/
def BKNode.insertAM {K V : Type} (d : K → K → Nat) (key : K) (value : V)
    (modify : V → Option V → V) : BKNode K V → BKNode K V × List (V × Option V)
  | .mk nd nk nv cs =>
    let dist := d key nk
    if dist = 0 then
      (.mk nd nk (modify nv (some value)) cs, [(nv, some value)])
    else
      let step := insertChildren d key value modify dist cs
      (.mk nd nk nv step.1, step.2)

/-- Embeds the child-list scan of `BKMap::insert_and_modify`
(`children.iter().position(|child| child.dist >= dist)` followed by the
equality test): skip children below `dist`; at the first child at or above
`dist`, either recurse into it (equal) or insert a fresh leaf before it;
append a fresh leaf when no such child exists. -/
def insertChildren {K V : Type} (d : K → K → Nat) (key : K) (value : V)
    (modify : V → Option V → V) (dist : Nat) :
    List (BKNode K V) → List (BKNode K V) × List (V × Option V)
  | [] => ([BKNode.mk dist key (modify value none) []], [(value, none)])
  | c :: cs =>
    if dist ≤ c.dist then
      if c.dist = dist then
        let step := BKNode.insertAM d key value modify c
        (step.1 :: cs, step.2)
      else
        (BKNode.mk dist key (modify value none) [] :: c :: cs, [(value, none)])
    else
      let step := insertChildren d key value modify dist cs
      (c :: step.1, step.2)

end

/-- Embeds `BKMap` up to its root: `None` for the empty map.  The metric is
passed to the operations as an explicit distance function. -/
def BKMap (K V : Type) : Type := Option (BKNode K V)

/-- Embeds `BKMap::insert_and_modify`: an empty map stores the (transformed)
value at a fresh root with placeholder edge distance `1`; otherwise the root
loop runs.  Also returns the callback invocation log. -/
def BKMap.insert_and_modify {K V : Type} (d : K → K → Nat) (key : K)
    (value : V) (modify : V → Option V → V) :
    BKMap K V → BKMap K V × List (V × Option V)
  | none => (some (.mk 1 key (modify value none) []), [(value, none)])
  | some root =>
    let step := root.insertAM d key value modify
    (some step.1, step.2)

/-- Embeds `BKMap::insert_or_modify` (merge only on a distance-0 collision,
otherwise store the incoming value unchanged). -/
def BKMap.insert_or_modify {K V : Type} (d : K → K → Nat) (key : K) (value : V)
    (modify : V → V → V) (m : BKMap K V) : BKMap K V × List (V × Option V) :=
  BKMap.insert_and_modify d key value
    (fun old new => match new with | some n => modify old n | none => old) m

/-- Embeds `BKMap::insert` (plain overwrite-on-collision insertion). -/
def BKMap.insert {K V : Type} (d : K → K → Nat) (key : K) (value : V)
    (m : BKMap K V) : BKMap K V :=
  (BKMap.insert_or_modify d key value (fun _ n => n) m).1

/-- Embeds `BKMap::len`. -/
def BKMap.len {K V : Type} : BKMap K V → Nat
  | none => 0
  | some root => root.len

/-- Embeds `BKMap::shrink_to_fit`. -/
def BKMap.shrink_to_fit {K V : Type} : BKMap K V → BKMap K V
  | none => none
  | some root => some root.shrink_to_fit

/-- All stored `(key, value)` entries of the map, in preorder. -/
def BKMap.entries {K V : Type} : BKMap K V → List (K × V)
  | none => []
  | some root => root.toList

theorem lenList_eq {K V : Type} (cs : List (BKNode K V)) :
    lenList cs = (cs.map BKNode.len).sum := by
  induction cs with
  | nil => rfl
  | cons c cs ih => rw [lenList, ih, List.map_cons, List.sum_cons]

theorem BKNode.len_mk {K V : Type} (d : Nat) (k : K) (v : V)
    (cs : List (BKNode K V)) :
    (BKNode.mk d k v cs).len = (cs.map BKNode.len).sum + 1 := by
  rw [BKNode.len, lenList_eq]

theorem BKNode.len_pos {K V : Type} (n : BKNode K V) : 0 < n.len := by
  cases n with
  | mk d k v cs => rw [BKNode.len_mk]; omega

theorem toListList_eq {K V : Type} (cs : List (BKNode K V)) :
    toListList cs = (cs.map BKNode.toList).flatten := by
  induction cs with
  | nil => rfl
  | cons c cs ih => rw [toListList, ih, List.map_cons, List.flatten_cons]

theorem BKNode.toList_mk {K V : Type} (d : Nat) (k : K) (v : V)
    (cs : List (BKNode K V)) :
    (BKNode.mk d k v cs).toList = (k, v) :: (cs.map BKNode.toList).flatten := by
  rw [BKNode.toList, toListList_eq]

theorem shrinkList_eq {K V : Type} (cs : List (BKNode K V)) :
    shrinkList cs = cs.map BKNode.shrink_to_fit := by
  induction cs with
  | nil => rfl
  | cons c cs ih => rw [shrinkList, ih, List.map_cons]

theorem BKNode.shrink_to_fit_mk {K V : Type} (d : Nat) (k : K) (v : V)
    (cs : List (BKNode K V)) :
    (BKNode.mk d k v cs).shrink_to_fit
      = BKNode.mk d k v (cs.map BKNode.shrink_to_fit) := by
  rw [BKNode.shrink_to_fit, shrinkList_eq]

/-- `children_around` selects a sublist of the children. -/
theorem BKNode.children_around_sublist {K V : Type} (n : BKNode K V)
    (dist radius : Nat) : (n.children_around dist radius).Sublist n.children :=
  (List.takeWhile_sublist _).trans (List.dropWhile_sublist _)

/-- The total number of entries on a traversal stack. -/
def stackLen {K V : Type} (stack : List (BKNode K V)) : Nat :=
  (stack.map BKNode.len).sum

theorem stackLen_cons_lt {K V : Type} (n : BKNode K V)
    (rest : List (BKNode K V)) (dist radius : Nat) :
    stackLen ((n.children_around dist radius).reverse ++ rest)
      < stackLen (n :: rest) := by
  have h1 : ((n.children_around dist radius).map BKNode.len).sum
      ≤ (n.children.map BKNode.len).sum := by
    apply List.Sublist.sum_le_sum
    · exact List.Sublist.map _ (BKNode.children_around_sublist n dist radius)
    · intro x _; exact Nat.zero_le x
  have h2 : (n.children.map BKNode.len).sum + 1 = n.len := by
    cases n with
    | mk d k v cs => rw [BKNode.len_mk, BKNode.children]
  simp only [stackLen, List.map_append, List.sum_append, List.map_cons,
    List.sum_cons, List.map_reverse, List.sum_reverse]
  omega

/-- Embeds the struct `BKFuzzy`: the radius-search iterator state (the metric
instance it owns is passed to `next` as a distance function). -/
structure BKFuzzy (K V S : Type) where
  stack : List (BKNode K V)
  key : S
  distance : Nat

/-- Embeds `<BKFuzzy as Iterator>::next`: pop a node, compute its distance,
push the window of its children, emit the node if it is within the radius,
otherwise continue with the shrunken stack.  The iterator state after the
call is returned alongside the produced item, so exhaustion is observable. -/
def BKFuzzy.next {K V S : Type} (dS : S → K → Nat) :
    BKFuzzy K V S → Option (Nat × K × V) × BKFuzzy K V S
  | ⟨[], key, distance⟩ => (none, ⟨[], key, distance⟩)
  | ⟨n :: rest, key, distance⟩ =>
    let dist := dS key n.key
    let stack2 := (n.children_around dist distance).reverse ++ rest
    if dist ≤ distance then
      (some (dist, n.key, n.value), ⟨stack2, key, distance⟩)
    else
      BKFuzzy.next dS ⟨stack2, key, distance⟩
termination_by it => stackLen it.stack
decreasing_by
  exact stackLen_cons_lt n rest (dS key n.key) distance

/-- Embeds `BKMap::fuzzy_search_distance`: a fresh iterator whose stack holds
the root if present. -/
def BKMap.fuzzy_search_distance {K V S : Type} (m : BKMap K V) (key : S)
    (distance : Nat) : BKFuzzy K V S :=
  ⟨Option.toList (α := BKNode K V) m, key, distance⟩

theorem BKFuzzy.next_nil {K V S : Type} (dS : S → K → Nat) (key : S)
    (distance : Nat) :
    BKFuzzy.next dS (⟨[], key, distance⟩ : BKFuzzy K V S)
      = (none, ⟨[], key, distance⟩) := by
  rw [BKFuzzy.next]

theorem BKFuzzy.next_cons {K V S : Type} (dS : S → K → Nat) (n : BKNode K V)
    (rest : List (BKNode K V)) (key : S) (distance : Nat) :
    BKFuzzy.next dS (⟨n :: rest, key, distance⟩ : BKFuzzy K V S)
      = if dS key n.key ≤ distance then
          (some (dS key n.key, n.key, n.value),
            ⟨(n.children_around (dS key n.key) distance).reverse ++ rest,
              key, distance⟩)
        else
          BKFuzzy.next dS
            ⟨(n.children_around (dS key n.key) distance).reverse ++ rest,
              key, distance⟩ := by
  rw [BKFuzzy.next]

/-- A successful `next` strictly shrinks the total stack weight. -/
theorem BKFuzzy.next_some_lt {K V S : Type} (dS : S → K → Nat) :
    ∀ m (it : BKFuzzy K V S) x it2, stackLen it.stack ≤ m →
      BKFuzzy.next dS it = (some x, it2) →
      stackLen it2.stack < stackLen it.stack := by
  intro m
  induction m with
  | zero =>
    intro it x it2 hle h
    cases it with
    | mk stack key distance =>
      cases stack with
      | nil => rw [BKFuzzy.next_nil] at h; cases h
      | cons n rest =>
        exfalso
        have := stackLen_cons_lt n rest (dS key n.key) distance
        have h0 : 0 < stackLen (n :: rest) := by
          have := BKNode.len_pos n
          simp [stackLen]
          omega
        simp only [stackLen] at hle h0
        omega
  | succ m ih =>
    intro it x it2 hle h
    cases it with
    | mk stack key distance =>
      cases stack with
      | nil => rw [BKFuzzy.next_nil] at h; cases h
      | cons n rest =>
        dsimp only at hle ⊢
        rw [BKFuzzy.next_cons] at h
        by_cases hd : dS key n.key ≤ distance
        · rw [if_pos hd] at h
          cases h
          exact stackLen_cons_lt n rest (dS key n.key) distance
        · rw [if_neg hd] at h
          have hlt := stackLen_cons_lt n rest (dS key n.key) distance
          have hrec := ih ⟨(n.children_around (dS key n.key) distance).reverse
              ++ rest, key, distance⟩ x it2 (by dsimp only; omega) h
          dsimp only at hrec
          omega

/-- The whole (finite) output of the radius-search iterator: repeatedly call
`next` until it yields nothing. -/
def BKFuzzy.toList {K V S : Type} (dS : S → K → Nat) (it : BKFuzzy K V S) :
    List (Nat × K × V) :=
  match h : BKFuzzy.next dS it with
  | (none, _) => []
  | (some x, it2) => x :: BKFuzzy.toList dS it2
termination_by stackLen it.stack
decreasing_by
  exact BKFuzzy.next_some_lt dS (stackLen it.stack) it x it2 (le_refl _) h

theorem BKFuzzy.toList_congr {K V S : Type} (dS : S → K → Nat)
    (it it2 : BKFuzzy K V S) (h : BKFuzzy.next dS it = BKFuzzy.next dS it2) :
    BKFuzzy.toList dS it = BKFuzzy.toList dS it2 := by
  rw [BKFuzzy.toList, BKFuzzy.toList, h]

theorem BKFuzzy.toList_nil {K V S : Type} (dS : S → K → Nat) (key : S)
    (distance : Nat) :
    BKFuzzy.toList dS (⟨[], key, distance⟩ : BKFuzzy K V S) = [] := by
  rw [BKFuzzy.toList, BKFuzzy.next_nil]

theorem BKFuzzy.toList_cons {K V S : Type} (dS : S → K → Nat) (n : BKNode K V)
    (rest : List (BKNode K V)) (key : S) (distance : Nat) :
    BKFuzzy.toList dS (⟨n :: rest, key, distance⟩ : BKFuzzy K V S)
      = (if dS key n.key ≤ distance
          then [(dS key n.key, n.key, n.value)] else [])
        ++ BKFuzzy.toList dS
            (⟨(n.children_around (dS key n.key) distance).reverse ++ rest,
              key, distance⟩ : BKFuzzy K V S) := by
  by_cases hd : dS key n.key ≤ distance
  · rw [if_pos hd, BKFuzzy.toList, BKFuzzy.next_cons, if_pos hd]
    rfl
  · rw [if_neg hd]
    apply BKFuzzy.toList_congr
    rw [BKFuzzy.next_cons, if_neg hd]

/-- When `next` produces nothing, the stack it leaves behind is empty. -/
theorem BKFuzzy.next_none_stack {K V S : Type} (dS : S → K → Nat) :
    ∀ m (it it2 : BKFuzzy K V S), stackLen it.stack ≤ m →
      BKFuzzy.next dS it = (none, it2) → it2.stack = [] := by
  intro m
  induction m with
  | zero =>
    intro it it2 hle h
    cases it with
    | mk stack key distance =>
      cases stack with
      | nil => rw [BKFuzzy.next_nil] at h; cases h; rfl
      | cons n rest =>
        exfalso
        have := BKNode.len_pos n
        dsimp only at hle
        simp only [stackLen, List.map_cons, List.sum_cons] at hle
        omega
  | succ m ih =>
    intro it it2 hle h
    cases it with
    | mk stack key distance =>
      cases stack with
      | nil => rw [BKFuzzy.next_nil] at h; cases h; rfl
      | cons n rest =>
        dsimp only at hle
        rw [BKFuzzy.next_cons] at h
        by_cases hd : dS key n.key ≤ distance
        · rw [if_pos hd] at h; cases h
        · rw [if_neg hd] at h
          have hlt := stackLen_cons_lt n rest (dS key n.key) distance
          exact ih _ it2 (by dsimp only; omega) h

/-- Claim C10: the radius-search iterator is fused — once `next` returns no
item, every further call on the state it leaves behind also returns no
item. -/
theorem claim_C10_fuzzy_iterator_fused {K V S : Type} (dS : S → K → Nat)
    (it : BKFuzzy K V S) (h : (BKFuzzy.next dS it).1 = none) :
    (BKFuzzy.next dS (BKFuzzy.next dS it).2).1 = none := by
  have hpair : BKFuzzy.next dS it = (none, (BKFuzzy.next dS it).2) := by
    cases hx : BKFuzzy.next dS it with
    | mk fst snd => rw [hx] at h; cases h; rfl
  have hstack := BKFuzzy.next_none_stack dS (stackLen it.stack) it
    (BKFuzzy.next dS it).2 (le_refl _) hpair
  cases hsnd : (BKFuzzy.next dS it).2 with
  | mk stack key distance =>
    rw [hsnd] at hstack
    dsimp only at hstack
    subst hstack
    rw [BKFuzzy.next_nil]

/-- Witness for claim C10 at a concrete exhausted iterator state. -/
theorem claim_C10_witness :
    (BKFuzzy.next (fun (_ : Nat) (_ : Nat) => 0)
      ((⟨[], 0, 0⟩ : BKFuzzy Nat Nat Nat))).1 = none ∧
    (BKFuzzy.next (fun (_ : Nat) (_ : Nat) => 0)
      ((BKFuzzy.next (fun (_ : Nat) (_ : Nat) => 0)
        ((⟨[], 0, 0⟩ : BKFuzzy Nat Nat Nat))).2)).1 = none := by
  constructor
  · rw [BKFuzzy.next_nil]
  · exact claim_C10_fuzzy_iterator_fused _ _ (by rw [BKFuzzy.next_nil])

/-- Structural induction over a `BKNode`, descending into the children. -/
theorem BKNode.inductionOn {K V : Type} {P : BKNode K V → Prop}
    (ind : ∀ d k v cs, (∀ c ∈ cs, P c) → P (.mk d k v cs)) (n : BKNode K V) :
    P n :=
  match n with
  | .mk d k v cs => ind d k v cs (fun c hc => BKNode.inductionOn ind c)
termination_by sizeOf n
decreasing_by
  have := List.sizeOf_lt_of_mem hc
  simp only [BKNode.mk.sizeOf_spec]
  omega

mutual

/-- All nodes of the subtree, in preorder. -/
def BKNode.nodesList {K V : Type} : BKNode K V → List (BKNode K V)
  | .mk d k v cs => .mk d k v cs :: nodesListList cs

/-- Concatenation of `BKNode.nodesList` over a list of nodes. -/
def nodesListList {K V : Type} : List (BKNode K V) → List (BKNode K V)
  | [] => []
  | c :: cs => BKNode.nodesList c ++ nodesListList cs

end

theorem nodesListList_eq {K V : Type} (cs : List (BKNode K V)) :
    nodesListList cs = (cs.map BKNode.nodesList).flatten := by
  induction cs with
  | nil => rfl
  | cons c cs ih => rw [nodesListList, ih, List.map_cons, List.flatten_cons]

theorem BKNode.nodesList_mk {K V : Type} (d : Nat) (k : K) (v : V)
    (cs : List (BKNode K V)) :
    (BKNode.mk d k v cs).nodesList
      = BKNode.mk d k v cs :: (cs.map BKNode.nodesList).flatten := by
  rw [BKNode.nodesList, nodesListList_eq]

theorem BKNode.mem_nodesList_mk {K V : Type} {x : BKNode K V} (d : Nat) (k : K)
    (v : V) (cs : List (BKNode K V)) :
    x ∈ (BKNode.mk d k v cs).nodesList
      ↔ x = BKNode.mk d k v cs ∨ ∃ c ∈ cs, x ∈ c.nodesList := by
  rw [BKNode.nodesList_mk]
  simp [List.mem_flatten]

/-- The per-node invariant: children strictly ascending by edge distance. -/
def childrenSorted {K V : Type} (n : BKNode K V) : Prop :=
  List.Pairwise (fun a b : BKNode K V => a.dist < b.dist) n.children

/-- The children of every node of the subtree are strictly ascending by edge
distance (so no two siblings share a distance). -/
def BKNode.SortedInv {K V : Type} (t : BKNode K V) : Prop :=
  ∀ n ∈ t.nodesList, childrenSorted n

def BKMap.SortedInv {K V : Type} : BKMap K V → Prop
  | none => True
  | some root => root.SortedInv

/-- Shrinking is the identity on the tree structure: it only returns unused
allocation. -/
theorem BKNode.shrink_to_fit_eq {K V : Type} (n : BKNode K V) :
    n.shrink_to_fit = n := by
  induction n using BKNode.inductionOn with
  | ind d k v cs ih =>
    rw [BKNode.shrink_to_fit_mk]
    congr 1
    calc cs.map BKNode.shrink_to_fit = cs.map id := List.map_congr_left ih
    _ = cs := List.map_id cs

theorem BKMap.shrink_to_fit_id {K V : Type} (m : BKMap K V) :
    m.shrink_to_fit = m := by
  cases m with
  | none => rfl
  | some root => rw [BKMap.shrink_to_fit, BKNode.shrink_to_fit_eq]

/-- Claim C8: `shrink_to_fit` leaves the whole tree — its length, its entries,
every node — unchanged, and preserves the children-sorted invariant; it can
only return allocated capacity, which has no observable counterpart here. -/
theorem claim_C8_shrink_to_fit_preserves {K V : Type} (m : BKMap K V) :
    m.shrink_to_fit = m ∧
    (BKMap.shrink_to_fit m).len = m.len ∧
    (BKMap.shrink_to_fit m).entries = m.entries ∧
    ((BKMap.shrink_to_fit m).SortedInv ↔ m.SortedInv) := by
  rw [BKMap.shrink_to_fit_id]
  exact ⟨rfl, rfl, rfl, Iff.rfl⟩

@[simp] theorem BKNode.dist_mk {K V : Type} (d : Nat) (k : K) (v : V)
    (cs : List (BKNode K V)) : (BKNode.mk d k v cs).dist = d := rfl

@[simp] theorem BKNode.key_mk {K V : Type} (d : Nat) (k : K) (v : V)
    (cs : List (BKNode K V)) : (BKNode.mk d k v cs).key = k := rfl

@[simp] theorem BKNode.value_mk {K V : Type} (d : Nat) (k : K) (v : V)
    (cs : List (BKNode K V)) : (BKNode.mk d k v cs).value = v := rfl

@[simp] theorem BKNode.children_mk {K V : Type} (d : Nat) (k : K) (v : V)
    (cs : List (BKNode K V)) : (BKNode.mk d k v cs).children = cs := rfl

/-- Inserting does not change the visited node's edge distance or key. -/
theorem BKNode.insertAM_dist_key {K V : Type} (d : K → K → Nat) (key : K)
    (value : V) (modify : V → Option V → V) (n : BKNode K V) :
    (n.insertAM d key value modify).1.dist = n.dist ∧
    (n.insertAM d key value modify).1.key = n.key := by
  cases n with
  | mk nd nk nv cs =>
    rw [BKNode.insertAM]
    dsimp only
    split <;> exact ⟨rfl, rfl⟩

/-- Characterization of the child-list scan of `insert_and_modify`: either the
first child at distance at-or-above `dist` matches exactly and the insertion
recurses into it, or a fresh leaf is placed just before the first strictly
larger child. -/
theorem insertChildren_spec {K V : Type} (d : K → K → Nat) (key : K)
    (value : V) (modify : V → Option V → V) (dist : Nat) :
    ∀ cs : List (BKNode K V),
      (∃ pre c post, cs = pre ++ c :: post ∧ (∀ p ∈ pre, p.dist < dist) ∧
        c.dist = dist ∧
        insertChildren d key value modify dist cs
          = (pre ++ (BKNode.insertAM d key value modify c).1 :: post,
             (BKNode.insertAM d key value modify c).2))
      ∨ (∃ pre post, cs = pre ++ post ∧
        (∀ p ∈ pre, p.dist < dist) ∧
        (∀ p, post.head? = some p → dist < p.dist) ∧
        insertChildren d key value modify dist cs
          = (pre ++ BKNode.mk dist key (modify value none) [] :: post,
             [(value, none)])) := by
  intro cs
  induction cs with
  | nil =>
    right
    refine ⟨[], [], by simp, by simp, by simp, ?_⟩
    rw [insertChildren]
    simp
  | cons c cs ih =>
    by_cases hle : dist ≤ c.dist
    · by_cases heq : c.dist = dist
      · left
        refine ⟨[], c, cs, by simp, by simp, heq, ?_⟩
        rw [insertChildren]
        dsimp only
        rw [if_pos hle, if_pos heq]
        rfl
      · right
        refine ⟨[], c :: cs, by simp, by simp, ?_, ?_⟩
        · intro p hp
          simp only [List.head?_cons, Option.some.injEq] at hp
          subst hp
          omega
        · rw [insertChildren]
          dsimp only
          rw [if_pos hle, if_neg heq]
          simp
    · rcases ih with ⟨pre, c0, post, hcs, hpre, hc0, hres⟩ |
        ⟨pre, post, hcs, hpre, hhead, hres⟩
      · left
        refine ⟨c :: pre, c0, post, by simp [hcs], ?_, hc0, ?_⟩
        · intro p hp
          rcases List.mem_cons.mp hp with rfl | hp
          · omega
          · exact hpre p hp
        · rw [insertChildren]
          dsimp only
          rw [if_neg hle, hres]
          rfl
      · right
        refine ⟨c :: pre, post, by simp [hcs], ?_, hhead, ?_⟩
        · intro p hp
          rcases List.mem_cons.mp hp with rfl | hp
          · omega
          · exact hpre p hp
        · rw [insertChildren]
          dsimp only
          rw [if_neg hle, hres]
          rfl

theorem BKNode.sortedInv_mk {K V : Type} (d : Nat) (k : K) (v : V)
    (cs : List (BKNode K V)) :
    (BKNode.mk d k v cs).SortedInv
      ↔ childrenSorted (BKNode.mk d k v cs) ∧ ∀ c ∈ cs, c.SortedInv := by
  constructor
  · intro h
    refine ⟨h _ (by rw [BKNode.nodesList_mk]; exact List.mem_cons_self _ _), ?_⟩
    intro c hc n hn
    apply h
    rw [BKNode.mem_nodesList_mk]
    exact Or.inr ⟨c, hc, hn⟩
  · rintro ⟨hself, hcs⟩ n hn
    rcases (BKNode.mem_nodesList_mk _ _ _ _).mp hn with rfl | ⟨c, hc, hn⟩
    · exact hself
    · exact hcs c hc n hn

theorem BKNode.sortedInv_leaf {K V : Type} (d : Nat) (k : K) (v : V) :
    (BKNode.mk d k v []).SortedInv := by
  rw [BKNode.sortedInv_mk]
  exact ⟨List.Pairwise.nil, by simp⟩

/-- Replacing a list element by one with the same edge distance preserves the
strict sortedness by distance. -/
theorem pairwise_dist_replace {K V : Type} {pre post : List (BKNode K V)}
    {c c' : BKNode K V} (hd : c'.dist = c.dist)
    (h : List.Pairwise (fun a b : BKNode K V => a.dist < b.dist)
      (pre ++ c :: post)) :
    List.Pairwise (fun a b : BKNode K V => a.dist < b.dist)
      (pre ++ c' :: post) := by
  rw [List.pairwise_append] at h ⊢
  obtain ⟨h1, h2, h3⟩ := h
  rw [List.pairwise_cons] at h2 ⊢
  refine ⟨h1, ⟨fun b hb => by rw [hd]; exact h2.1 b hb, h2.2⟩, ?_⟩
  intro a ha b hb
  rcases List.mem_cons.mp hb with rfl | hb
  · rw [hd]; exact h3 a ha c (List.mem_cons_self _ _)
  · exact h3 a ha b (List.mem_cons.mpr (Or.inr hb))

/-- Insertion preserves the children-sorted invariant at every node. -/
theorem BKNode.insertAM_sortedInv {K V : Type} (d : K → K → Nat) (key : K)
    (value : V) (modify : V → Option V → V) (n : BKNode K V)
    (hs : n.SortedInv) : (n.insertAM d key value modify).1.SortedInv := by
  induction n using BKNode.inductionOn with
  | ind nd nk nv cs ih =>
    rw [BKNode.sortedInv_mk] at hs
    obtain ⟨hsrt, hmem⟩ := hs
    rw [BKNode.insertAM]
    dsimp only
    split
    · rw [BKNode.sortedInv_mk]
      exact ⟨hsrt, hmem⟩
    · rcases insertChildren_spec d key value modify (d key nk) cs with
        ⟨pre, c, post, hcs, hpre, hcd, hres⟩ | ⟨pre, post, hcs, hpre, hhead, hres⟩
      · rw [hres]
        dsimp only
        rw [BKNode.sortedInv_mk]
        constructor
        · unfold childrenSorted at hsrt ⊢
          rw [BKNode.children_mk] at hsrt ⊢
          rw [hcs] at hsrt
          exact pairwise_dist_replace
            (BKNode.insertAM_dist_key d key value modify c).1 hsrt
        · intro x hx
          rcases List.mem_append.mp hx with hx | hx
          · exact hmem x (by rw [hcs]; exact List.mem_append_left _ hx)
          · rcases List.mem_cons.mp hx with rfl | hx
            · exact ih c (by rw [hcs]; simp)
                (hmem c (by rw [hcs]; simp))
            · exact hmem x (by rw [hcs]; simp [hx])
      · rw [hres]
        dsimp only
        rw [BKNode.sortedInv_mk]
        have hpost : ∀ b ∈ post, d key nk < b.dist := by
          intro b hb
          cases post with
          | nil => cases hb
          | cons p0 rest =>
            have h0 : d key nk < p0.dist := hhead p0 rfl
            rcases List.mem_cons.mp hb with rfl | hb
            · exact h0
            · have hp : List.Pairwise
                  (fun a b : BKNode K V => a.dist < b.dist) (p0 :: rest) := by
                unfold childrenSorted at hsrt
                rw [BKNode.children_mk, hcs] at hsrt
                exact (List.pairwise_append.mp hsrt).2.1
              have := (List.pairwise_cons.mp hp).1 b hb
              omega
        constructor
        · unfold childrenSorted at hsrt ⊢
          rw [BKNode.children_mk] at hsrt ⊢
          rw [hcs] at hsrt
          rw [List.pairwise_append] at hsrt ⊢
          obtain ⟨h1, h2, h3⟩ := hsrt
          refine ⟨h1, ?_, ?_⟩
          · rw [List.pairwise_cons]
            exact ⟨fun b hb => by simpa using hpost b hb, h2⟩
          · intro a ha b hb
            rcases List.mem_cons.mp hb with rfl | hb
            · simpa using hpre a ha
            · exact h3 a ha b hb
        · intro x hx
          rcases List.mem_append.mp hx with hx | hx
          · exact hmem x (by rw [hcs]; exact List.mem_append_left _ hx)
          · rcases List.mem_cons.mp hx with rfl | hx
            · exact BKNode.sortedInv_leaf _ _ _
            · exact hmem x (by rw [hcs]; exact List.mem_append_right _ hx)

theorem BKMap.insert_and_modify_sortedInv {K V : Type} (d : K → K → Nat)
    (key : K) (value : V) (modify : V → Option V → V) (m : BKMap K V)
    (hs : m.SortedInv) :
    (BKMap.insert_and_modify d key value modify m).1.SortedInv := by
  cases m with
  | none => exact BKNode.sortedInv_leaf _ _ _
  | some root => exact BKNode.insertAM_sortedInv d key value modify root hs

/-- A sequence of `insert_and_modify` calls (which subsumes `insert` and
`insert_or_modify`), applied left to right. -/
def applyOps {K V : Type} (d : K → K → Nat)
    (ops : List (K × V × (V → Option V → V))) (m : BKMap K V) : BKMap K V :=
  ops.foldl
    (fun acc op => (BKMap.insert_and_modify d op.1 op.2.1 op.2.2 acc).1) m

theorem applyOps_sortedInv {K V : Type} (d : K → K → Nat)
    (ops : List (K × V × (V → Option V → V))) (m : BKMap K V)
    (hs : m.SortedInv) : (applyOps d ops m).SortedInv := by
  induction ops generalizing m with
  | nil => exact hs
  | cons op ops ih =>
    exact ih _ (BKMap.insert_and_modify_sortedInv d op.1 op.2.1 op.2.2 m hs)

instance childrenSorted_decidable {K V : Type} (n : BKNode K V) :
    Decidable (childrenSorted n) :=
  inferInstanceAs (Decidable (List.Pairwise _ _))

instance BKNode.sortedInv_decidable {K V : Type} (t : BKNode K V) :
    Decidable t.SortedInv :=
  inferInstanceAs (Decidable (∀ n ∈ t.nodesList, childrenSorted n))

instance BKMap.sortedInv_decidable {K V : Type} :
    (m : BKMap K V) → Decidable m.SortedInv
  | none => isTrue trivial
  | some r => inferInstanceAs (Decidable r.SortedInv)

/-- On a sorted children list that does contain a child at the computed
distance, insertion recurses into that child and leaves the sibling distances
unchanged (no sibling is added). -/
theorem BKNode.insertAM_equal_dist_recurses {K V : Type} (d : K → K → Nat)
    (key : K) (value : V) (modify : V → Option V → V) (n : BKNode K V)
    (hs : n.SortedInv) (hne : d key n.key ≠ 0)
    (hex : ∃ c ∈ n.children, c.dist = d key n.key) :
    ((n.insertAM d key value modify).1).children.map BKNode.dist
      = n.children.map BKNode.dist := by
  cases n with
  | mk nd nk nv cs =>
    simp only [BKNode.key_mk] at hne
    simp only [BKNode.key_mk, BKNode.children_mk] at hex
    have hsrt : List.Pairwise (fun a b : BKNode K V => a.dist < b.dist) cs :=
      ((BKNode.sortedInv_mk nd nk nv cs).mp hs).1
    rw [BKNode.insertAM]
    dsimp only
    rw [if_neg hne]
    rcases insertChildren_spec d key value modify (d key nk) cs with
      ⟨pre, c, post, hcs, hpre, hcd, hres⟩ | ⟨pre, post, hcs, hpre, hhead, hres⟩
    · rw [hres]
      dsimp only
      rw [hcs]
      simp [(BKNode.insertAM_dist_key d key value modify c).1]
    · exfalso
      obtain ⟨c, hc, hcd⟩ := hex
      rw [hcs] at hc hsrt
      rcases List.mem_append.mp hc with hc | hc
      · have := hpre c hc
        omega
      · cases post with
        | nil => cases hc
        | cons p0 rest =>
          have h0 : d key nk < p0.dist := hhead p0 rfl
          rcases List.mem_cons.mp hc with rfl | hc
          · omega
          · have hp := (List.pairwise_append.mp hsrt).2.1
            have := (List.pairwise_cons.mp hp).1 c hc
            omega

/-- Claim C2: after any sequence of insertions (via `insert`,
`insert_or_modify` or `insert_and_modify`, all of which run
`insert_and_modify`), every node's children list is strictly ascending by
edge distance — so no two siblings share an edge distance — and an insertion
whose computed distance equals an existing child's edge distance recurses
into that child instead of adding a sibling. -/
theorem claim_C2_children_strictly_sorted {K V : Type} (d : K → K → Nat)
    (ops : List (K × V × (V → Option V → V))) :
    (applyOps d ops (none : BKMap K V)).SortedInv ∧
    (∀ (key : K) (value : V) (modify : V → Option V → V) (n : BKNode K V),
      n.SortedInv → d key n.key ≠ 0 →
      (∃ c ∈ n.children, c.dist = d key n.key) →
      ((n.insertAM d key value modify).1).children.map BKNode.dist
        = n.children.map BKNode.dist) := by
  constructor
  · apply applyOps_sortedInv
    trivial
  · intro key value modify n hs hne hex
    exact BKNode.insertAM_equal_dist_recurses d key value modify n hs hne hex

/-- Witness for claim C2 at a concrete metric, insertion sequence and node. -/
theorem claim_C2_witness :
    ((applyOps (fun a b => (a - b) + (b - a)) [(0, 0, fun v _ => v)]
        (none : BKMap Nat Nat)).SortedInv) ∧
    ((BKNode.mk 1 0 0 [BKNode.mk 5 5 99 []] : BKNode Nat Nat).SortedInv ∧
      ((fun a b : Nat => (a - b) + (b - a)) 5 0 ≠ 0) ∧
      (∃ c ∈ (BKNode.mk 1 0 0 [BKNode.mk 5 5 99 []] : BKNode Nat Nat).children,
        c.dist = (fun a b : Nat => (a - b) + (b - a)) 5 0) ∧
      (((BKNode.mk 1 0 0 [BKNode.mk 5 5 99 []] : BKNode Nat Nat).insertAM
          (fun a b => (a - b) + (b - a)) 5 7 (fun v _ => v)).1).children.map
            BKNode.dist
        = (BKNode.mk 1 0 0 [BKNode.mk 5 5 99 []] :
            BKNode Nat Nat).children.map BKNode.dist) := by
  refine ⟨(claim_C2_children_strictly_sorted _ _).1, by decide, by decide,
    by decide, ?_⟩
  exact (claim_C2_children_strictly_sorted (fun a b => (a - b) + (b - a))
    [(0, 0, fun v _ => v)]).2 5 7 (fun v _ => v) _ (by decide) (by decide)
    (by decide)

theorem BKNode.mem_toList_mk {K V : Type} {p : K × V} (d : Nat) (k : K) (v : V)
    (cs : List (BKNode K V)) :
    p ∈ (BKNode.mk d k v cs).toList
      ↔ p = (k, v) ∨ ∃ c ∈ cs, p ∈ c.toList := by
  rw [BKNode.toList_mk]
  simp [List.mem_flatten]

/-- The BK-tree routing invariant: every entry stored below a child sits at
exactly that child's edge distance from the parent's key (first metric
argument is the stored key, matching `metric.distance(&key, &node.key)` at
insertion time). -/
def BKNode.RouteInv {K V : Type} (d : K → K → Nat) (t : BKNode K V) : Prop :=
  ∀ n ∈ t.nodesList, ∀ c ∈ n.children, ∀ p ∈ c.toList, d p.1 n.key = c.dist

theorem BKNode.routeInv_mk {K V : Type} (d : K → K → Nat) (nd : Nat) (nk : K)
    (nv : V) (cs : List (BKNode K V)) :
    BKNode.RouteInv d (BKNode.mk nd nk nv cs)
      ↔ (∀ c ∈ cs, ∀ p ∈ c.toList, d p.1 nk = c.dist)
        ∧ ∀ c ∈ cs, BKNode.RouteInv d c := by
  constructor
  · intro h
    constructor
    · intro c hc p hp
      have := h _ (by rw [BKNode.nodesList_mk]; exact List.mem_cons_self _ _)
        c (by rw [BKNode.children_mk]; exact hc) p hp
      simpa using this
    · intro c hc n hn c2 hc2 p hp
      exact h n (by rw [BKNode.mem_nodesList_mk]; exact Or.inr ⟨c, hc, hn⟩)
        c2 hc2 p hp
  · rintro ⟨hself, hcs⟩ n hn c hc p hp
    rcases (BKNode.mem_nodesList_mk _ _ _ _).mp hn with rfl | ⟨c0, hc0, hn⟩
    · rw [BKNode.children_mk] at hc
      simpa using hself c hc p hp
    · exact hcs c0 hc0 n hn c hc p hp

theorem BKNode.routeInv_leaf {K V : Type} (d : K → K → Nat) (nd : Nat) (nk : K)
    (nv : V) : BKNode.RouteInv d (BKNode.mk nd nk nv []) := by
  rw [BKNode.routeInv_mk]
  constructor <;> simp

def BKMap.RouteInv {K V : Type} (d : K → K → Nat) : BKMap K V → Prop
  | none => True
  | some root => root.RouteInv d

/-- How one `insert_and_modify` call changes the stored entries: either it
finds a stored entry at metric distance 0 from the new key and rewrites that
entry's value in place (callback invoked once, with the existing value as
subject and `Some(new value)` as other), or it splices the new key with the
transformed value into the entry list (callback invoked once with the new
value as subject and `None`). -/
theorem BKNode.insertAM_toList_spec {K V : Type} (d : K → K → Nat) (key : K)
    (value : V) (modify : V → Option V → V) (n : BKNode K V) :
    (∃ l1 k0 v0 l2, d key k0 = 0 ∧ n.toList = l1 ++ (k0, v0) :: l2 ∧
      (n.insertAM d key value modify).1.toList
        = l1 ++ (k0, modify v0 (some value)) :: l2 ∧
      (n.insertAM d key value modify).2 = [(v0, some value)])
    ∨ (∃ l1 l2, n.toList = l1 ++ l2 ∧
      (n.insertAM d key value modify).1.toList
        = l1 ++ (key, modify value none) :: l2 ∧
      (n.insertAM d key value modify).2 = [(value, none)]) := by
  induction n using BKNode.inductionOn with
  | ind nd nk nv cs ih =>
    by_cases h0 : d key nk = 0
    · left
      refine ⟨[], nk, nv, (cs.map BKNode.toList).flatten, h0, by
        rw [BKNode.toList_mk]; rfl, ?_, ?_⟩
      · rw [BKNode.insertAM]
        dsimp only
        rw [if_pos h0, BKNode.toList_mk]
        rfl
      · rw [BKNode.insertAM]
        dsimp only
        rw [if_pos h0]
    · rcases insertChildren_spec d key value modify (d key nk) cs with
        ⟨pre, c, post, hcs, hpre, hcd, hres⟩ | ⟨pre, post, hcs, hpre, hhead, hres⟩
      · have hunfold : (BKNode.mk nd nk nv cs).insertAM d key value modify
            = (BKNode.mk nd nk nv
                (pre ++ (c.insertAM d key value modify).1 :: post),
               (c.insertAM d key value modify).2) := by
          rw [BKNode.insertAM]
          dsimp only
          rw [if_neg h0, hres]
        rcases ih c (by rw [hcs]; simp) with
          ⟨m1, k0, v0, m2, hk0, hctl, hctl', hclog⟩ |
          ⟨m1, m2, hctl, hctl', hclog⟩
        · left
          refine ⟨(nk, nv) :: ((pre.map BKNode.toList).flatten ++ m1), k0, v0,
            m2 ++ (post.map BKNode.toList).flatten, hk0, ?_, ?_, ?_⟩
          · rw [BKNode.toList_mk, hcs]
            simp [hctl, List.append_assoc]
          · rw [hunfold, BKNode.toList_mk]
            simp [hctl', List.append_assoc]
          · rw [hunfold, hclog]
        · right
          refine ⟨(nk, nv) :: ((pre.map BKNode.toList).flatten ++ m1),
            m2 ++ (post.map BKNode.toList).flatten, ?_, ?_, ?_⟩
          · rw [BKNode.toList_mk, hcs]
            simp [hctl, List.append_assoc]
          · rw [hunfold, BKNode.toList_mk]
            simp [hctl', List.append_assoc]
          · rw [hunfold, hclog]
      · right
        have hunfold : (BKNode.mk nd nk nv cs).insertAM d key value modify
            = (BKNode.mk nd nk nv
                (pre ++ BKNode.mk (d key nk) key (modify value none) [] :: post),
               [(value, none)]) := by
          rw [BKNode.insertAM]
          dsimp only
          rw [if_neg h0, hres]
        refine ⟨(nk, nv) :: (pre.map BKNode.toList).flatten,
          (post.map BKNode.toList).flatten, ?_, ?_, ?_⟩
        · rw [BKNode.toList_mk, hcs]
          simp
        · rw [hunfold, BKNode.toList_mk]
          simp [BKNode.toList_mk]
        · rw [hunfold]

/-- Insertion preserves the routing invariant. -/
theorem BKNode.insertAM_routeInv {K V : Type} (d : K → K → Nat) (key : K)
    (value : V) (modify : V → Option V → V) (n : BKNode K V)
    (hr : n.RouteInv d) : (n.insertAM d key value modify).1.RouteInv d := by
  induction n using BKNode.inductionOn with
  | ind nd nk nv cs ih =>
    rw [BKNode.routeInv_mk] at hr
    obtain ⟨hself, hrec⟩ := hr
    by_cases h0 : d key nk = 0
    · rw [BKNode.insertAM]
      dsimp only
      rw [if_pos h0]
      rw [BKNode.routeInv_mk]
      exact ⟨hself, hrec⟩
    · rcases insertChildren_spec d key value modify (d key nk) cs with
        ⟨pre, c, post, hcs, hpre, hcd, hres⟩ | ⟨pre, post, hcs, hpre, hhead, hres⟩
      · rw [BKNode.insertAM]
        dsimp only
        rw [if_neg h0, hres]
        dsimp only
        rw [BKNode.routeInv_mk]
        have hcmem : c ∈ cs := by rw [hcs]; simp
        constructor
        · intro cx hcx p hp
          rcases List.mem_append.mp hcx with hcx | hcx
          · exact hself cx (by rw [hcs]; exact List.mem_append_left _ hcx) p hp
          · rcases List.mem_cons.mp hcx with rfl | hcx
            · rw [(BKNode.insertAM_dist_key d key value modify c).1]
              rcases BKNode.insertAM_toList_spec d key value modify c with
                ⟨m1, k0, v0, m2, hk0, hctl, hctl', _⟩ |
                ⟨m1, m2, hctl, hctl', _⟩
              · rw [hctl'] at hp
                rcases List.mem_append.mp hp with hp | hp
                · refine hself c hcmem p ?_
                  rw [hctl]
                  exact List.mem_append_left _ hp
                · rcases List.mem_cons.mp hp with rfl | hp
                  · refine hself c hcmem (k0, v0) ?_
                    rw [hctl]
                    simp
                  · refine hself c hcmem p ?_
                    rw [hctl]
                    exact List.mem_append_right _ (List.mem_cons.mpr (Or.inr hp))
              · rw [hctl'] at hp
                rcases List.mem_append.mp hp with hp | hp
                · refine hself c hcmem p ?_
                  rw [hctl]
                  exact List.mem_append_left _ hp
                · rcases List.mem_cons.mp hp with rfl | hp
                  · exact hcd.symm
                  · refine hself c hcmem p ?_
                    rw [hctl]
                    exact List.mem_append_right _ hp
            · exact hself cx (by rw [hcs]; simp [hcx]) p hp
        · intro cx hcx
          rcases List.mem_append.mp hcx with hcx | hcx
          · exact hrec cx (by rw [hcs]; exact List.mem_append_left _ hcx)
          · rcases List.mem_cons.mp hcx with rfl | hcx
            · exact ih c hcmem (hrec c hcmem)
            · exact hrec cx (by rw [hcs]; simp [hcx])
      · rw [BKNode.insertAM]
        dsimp only
        rw [if_neg h0, hres]
        dsimp only
        rw [BKNode.routeInv_mk]
        constructor
        · intro cx hcx p hp
          rcases List.mem_append.mp hcx with hcx | hcx
          · exact hself cx (by rw [hcs]; exact List.mem_append_left _ hcx) p hp
          · rcases List.mem_cons.mp hcx with rfl | hcx
            · rw [BKNode.toList_mk] at hp
              simp only [List.map_nil, List.flatten_nil] at hp
              rcases List.mem_cons.mp hp with rfl | hp
              · simp
              · cases hp
            · exact hself cx (by rw [hcs]; exact List.mem_append_right _ hcx) p hp
        · intro cx hcx
          rcases List.mem_append.mp hcx with hcx | hcx
          · exact hrec cx (by rw [hcs]; exact List.mem_append_left _ hcx)
          · rcases List.mem_cons.mp hcx with rfl | hcx
            · exact BKNode.routeInv_leaf d _ _ _
            · exact hrec cx (by rw [hcs]; exact List.mem_append_right _ hcx)

theorem BKMap.insert_and_modify_routeInv {K V : Type} (d : K → K → Nat)
    (key : K) (value : V) (modify : V → Option V → V) (m : BKMap K V)
    (hr : m.RouteInv d) :
    (BKMap.insert_and_modify d key value modify m).1.RouteInv d := by
  cases m with
  | none => exact BKNode.routeInv_leaf d _ _ _
  | some root => exact BKNode.insertAM_routeInv d key value modify root hr

theorem applyOps_routeInv {K V : Type} (d : K → K → Nat)
    (ops : List (K × V × (V → Option V → V))) (m : BKMap K V)
    (hr : m.RouteInv d) : (applyOps d ops m).RouteInv d := by
  induction ops generalizing m with
  | nil => exact hr
  | cons op ops ih =>
    exact ih _ (BKMap.insert_and_modify_routeInv d op.1 op.2.1 op.2.2 m hr)

theorem BKNode.mem_nodesList_self {K V : Type} (t : BKNode K V) :
    t ∈ t.nodesList := by
  cases t with
  | mk d k v cs => rw [BKNode.nodesList_mk]; exact List.mem_cons_self _ _

theorem BKNode.sortedInv_child {K V : Type} {t c : BKNode K V}
    (hs : t.SortedInv) (hc : c ∈ t.children) : c.SortedInv := by
  cases t with
  | mk d k v cs =>
    rw [BKNode.children_mk] at hc
    exact ((BKNode.sortedInv_mk d k v cs).mp hs).2 c hc

theorem BKNode.routeInv_child {K V : Type} {d : K → K → Nat}
    {t c : BKNode K V} (hr : t.RouteInv d) (hc : c ∈ t.children) :
    c.RouteInv d := by
  cases t with
  | mk nd nk nv cs =>
    rw [BKNode.children_mk] at hc
    exact ((BKNode.routeInv_mk d nd nk nv cs).mp hr).2 c hc

theorem BKNode.childrenSorted_of_sortedInv {K V : Type} {t : BKNode K V}
    (hs : t.SortedInv) : childrenSorted t :=
  hs t t.mem_nodesList_self

theorem BKNode.route_at_root {K V : Type} {d : K → K → Nat} {t : BKNode K V}
    (hr : t.RouteInv d) : ∀ c ∈ t.children, ∀ p ∈ c.toList,
      d p.1 t.key = c.dist := by
  intro c hc p hp
  exact hr t t.mem_nodesList_self c hc p hp

theorem BKNode.toList_eq {K V : Type} (t : BKNode K V) :
    t.toList = (t.key, t.value) :: toListList t.children := by
  cases t with
  | mk d k v cs => rw [BKNode.toList_mk, toListList_eq]; rfl

theorem toListList_append {K V : Type} (l₁ l₂ : List (BKNode K V)) :
    toListList (l₁ ++ l₂) = toListList l₁ ++ toListList l₂ := by
  rw [toListList_eq, toListList_eq, toListList_eq]
  simp

theorem mem_toListList {K V : Type} {p : K × V} {l : List (BKNode K V)} :
    p ∈ toListList l ↔ ∃ c ∈ l, p ∈ c.toList := by
  rw [toListList_eq]
  simp [List.mem_flatten]

theorem toListList_perm {K V : Type} {l₁ l₂ : List (BKNode K V)}
    (h : l₁.Perm l₂) : (toListList l₁).Perm (toListList l₂) := by
  rw [toListList_eq, toListList_eq]
  exact (h.map _).flatten

/-- The brute-force radius filter over a list of stored entries. -/
def searchFilter {K V : Type} (d : K → K → Nat) (q : K) (r : Nat)
    (l : List (K × V)) : List (Nat × K × V) :=
  l.filterMap fun p => if d q p.1 ≤ r then some (d q p.1, p.1, p.2) else none

theorem searchFilter_append {K V : Type} (d : K → K → Nat) (q : K) (r : Nat)
    (l₁ l₂ : List (K × V)) :
    searchFilter d q r (l₁ ++ l₂)
      = searchFilter d q r l₁ ++ searchFilter d q r l₂ := by
  rw [searchFilter, searchFilter, searchFilter, List.filterMap_append]

theorem searchFilter_nil_of_far {K V : Type} (d : K → K → Nat) (q : K)
    (r : Nat) (l : List (K × V)) (h : ∀ p ∈ l, r < d q p.1) :
    searchFilter d q r l = [] := by
  rw [searchFilter, List.filterMap_eq_nil_iff]
  intro p hp
  rw [if_neg]
  have := h p hp
  omega

/-- On a strictly sorted list, everything dropped by
`take_while (dist ≤ hi)` lies strictly above `hi`. -/
theorem sorted_dropWhile_gt {K V : Type} (hi : Nat) :
    ∀ l : List (BKNode K V),
      List.Pairwise (fun a b : BKNode K V => a.dist < b.dist) l →
      ∀ c ∈ l.dropWhile (fun c => c.dist ≤ hi), hi < c.dist := by
  intro l
  induction l with
  | nil => intro _ c hc; cases hc
  | cons x l ih =>
    intro hp c hc
    rw [List.dropWhile_cons] at hc
    by_cases hx : x.dist ≤ hi
    · rw [if_pos (by simpa using hx)] at hc
      exact ih (List.pairwise_cons.mp hp).2 c hc
    · rw [if_neg (by simpa using hx)] at hc
      rcases List.mem_cons.mp hc with rfl | hc
      · omega
      · have := (List.pairwise_cons.mp hp).1 c hc
        omega

/-- For a sorted children list, `children_around` splits the children into a
low part (strictly below the window), the window and a high part (strictly
above the window). -/
theorem children_around_decomp {K V : Type} (n : BKNode K V)
    (dist radius : Nat) (hs : childrenSorted n) :
    ∃ lo hi, n.children = lo ++ n.children_around dist radius ++ hi ∧
      (∀ c ∈ lo, c.dist < dist - radius) ∧
      (∀ c ∈ hi, dist + radius < c.dist) := by
  unfold childrenSorted at hs
  refine ⟨n.children.takeWhile (fun c => c.dist < dist - radius),
    (n.children.dropWhile (fun c => c.dist < dist - radius)).dropWhile
      (fun c => c.dist ≤ dist + radius), ?_, ?_, ?_⟩
  · rw [BKNode.children_around, List.append_assoc,
      List.takeWhile_append_dropWhile, List.takeWhile_append_dropWhile]
  · intro c hc
    have := List.mem_takeWhile_imp hc
    simpa using this
  · apply sorted_dropWhile_gt
    exact hs.sublist (List.dropWhile_sublist _)

theorem searchFilter_cons {K V : Type} (d : K → K → Nat) (q : K) (r : Nat)
    (k : K) (v : V) (l : List (K × V)) :
    searchFilter d q r ((k, v) :: l)
      = (if d q k ≤ r then [(d q k, k, v)] else []) ++ searchFilter d q r l := by
  rw [searchFilter, searchFilter, List.filterMap_cons]
  by_cases h : d q k ≤ r
  · rw [if_pos h, if_pos h]
    rfl
  · rw [if_neg h, if_neg h]
    rfl

theorem searchFilter_perm {K V : Type} (d : K → K → Nat) (q : K) (r : Nat)
    {l₁ l₂ : List (K × V)} (h : l₁.Perm l₂) :
    (searchFilter d q r l₁).Perm (searchFilter d q r l₂) :=
  h.filterMap _

/-- The radius search over a stack of (invariant-satisfying) subtrees emits,
up to order, exactly the brute-force filter of all entries below the stack. -/
theorem fuzzy_toList_perm {K V : Type} (d : K → K → Nat)
    (hsymm : ∀ x y, d x y = d y x)
    (htri : ∀ x y z, d x z ≤ d x y + d y z) (q : K) (r : Nat) :
    ∀ (m : Nat) (stack : List (BKNode K V)), stackLen stack ≤ m →
      (∀ n ∈ stack, n.SortedInv ∧ n.RouteInv d) →
      (BKFuzzy.toList d (⟨stack, q, r⟩ : BKFuzzy K V K)).Perm
        (searchFilter d q r (toListList stack)) := by
  intro m
  induction m with
  | zero =>
    intro stack hle hstack
    cases stack with
    | nil =>
      rw [BKFuzzy.toList_nil, toListList]
      exact List.Perm.refl _
    | cons n rest =>
      exfalso
      have := BKNode.len_pos n
      simp only [stackLen, List.map_cons, List.sum_cons] at hle
      omega
  | succ m ih =>
    intro stack hle hstack
    cases stack with
    | nil =>
      rw [BKFuzzy.toList_nil, toListList]
      exact List.Perm.refl _
    | cons n rest =>
      have hinv := hstack n (List.mem_cons_self _ _)
      have hsortc := BKNode.childrenSorted_of_sortedInv hinv.1
      obtain ⟨lo, hi, hdec, hlo, hhi⟩ :=
        children_around_decomp n (d q n.key) r hsortc
      have hroute := BKNode.route_at_root hinv.2
      have hwin_sub : (n.children_around (d q n.key) r).Sublist n.children :=
        BKNode.children_around_sublist n _ _
      have hstack2 : ∀ x ∈ (n.children_around (d q n.key) r).reverse ++ rest,
          x.SortedInv ∧ x.RouteInv d := by
        intro x hx
        rcases List.mem_append.mp hx with hx | hx
        · have hx' : x ∈ n.children := hwin_sub.mem (List.mem_reverse.mp hx)
          exact ⟨BKNode.sortedInv_child hinv.1 hx',
                 BKNode.routeInv_child hinv.2 hx'⟩
        · exact hstack x (List.mem_cons.mpr (Or.inr hx))
      have hle2 : stackLen ((n.children_around (d q n.key) r).reverse ++ rest)
          ≤ m := by
        have := stackLen_cons_lt n rest (d q n.key) r
        omega
      have hIH := ih _ hle2 hstack2
      have hlo_far : ∀ p ∈ toListList lo, r < d q p.1 := by
        intro p hp
        obtain ⟨c, hc, hpc⟩ := mem_toListList.mp hp
        have hcmem : c ∈ n.children := by
          rw [hdec]
          exact List.mem_append_left _ (List.mem_append_left _ hc)
        have h1 := htri q p.1 n.key
        have h2 := hroute c hcmem p hpc
        have h3 := hlo c hc
        omega
      have hhi_far : ∀ p ∈ toListList hi, r < d q p.1 := by
        intro p hp
        obtain ⟨c, hc, hpc⟩ := mem_toListList.mp hp
        have hcmem : c ∈ n.children := by
          rw [hdec]
          exact List.mem_append_right _ hc
        have h1 := htri p.1 q n.key
        have h2 := hroute c hcmem p hpc
        have h3 := hhi c hc
        have h4 := hsymm p.1 q
        omega
      have hchild : searchFilter d q r (toListList n.children)
          = searchFilter d q r
              (toListList (n.children_around (d q n.key) r)) := by
        rw [hdec, toListList_append, toListList_append, searchFilter_append,
          searchFilter_append, searchFilter_nil_of_far d q r _ hlo_far,
          searchFilter_nil_of_far d q r _ hhi_far]
        simp
      rw [BKFuzzy.toList_cons]
      have hrhs : searchFilter d q r (toListList (n :: rest))
          = (if d q n.key ≤ r then [(d q n.key, n.key, n.value)] else [])
            ++ (searchFilter d q r
                  (toListList (n.children_around (d q n.key) r))
               ++ searchFilter d q r (toListList rest)) := by
        rw [toListList, searchFilter_append, BKNode.toList_eq n,
          searchFilter_cons, hchild, List.append_assoc]
      rw [hrhs]
      apply List.Perm.append_left
      refine hIH.trans ?_
      rw [toListList_append, searchFilter_append]
      exact (searchFilter_perm d q r
        (toListList_perm (List.reverse_perm _))).append_right _

/-- Claim C1: for a correct metric (symmetric, zero iff equal, triangle
inequality; non-negativity is inherent to `Nat`) and any insertion sequence,
draining `fuzzy_search_distance(q, r)` produces exactly the `(distance, key,
value)` triples a brute-force scan of all stored entries with
`distance(q, key) ≤ r` would produce, up to order. -/
theorem claim_C1_radius_search_exact {K V : Type} (d : K → K → Nat)
    (hsymm : ∀ x y, d x y = d y x)
    (hzero : ∀ x y, d x y = 0 ↔ x = y)
    (htri : ∀ x y z, d x z ≤ d x y + d y z)
    (ops : List (K × V × (V → Option V → V))) (q : K) (r : Nat) :
    (BKFuzzy.toList d
      ((applyOps d ops (none : BKMap K V)).fuzzy_search_distance q r)).Perm
      (searchFilter d q r (applyOps d ops (none : BKMap K V)).entries) := by
  have hs := applyOps_sortedInv d ops (none : BKMap K V) trivial
  have hr := applyOps_routeInv d ops (none : BKMap K V) trivial
  cases hm : applyOps d ops (none : BKMap K V) with
  | none =>
    rw [BKMap.fuzzy_search_distance, BKMap.entries]
    have : Option.toList (none : Option (BKNode K V)) = [] := rfl
    rw [this, BKFuzzy.toList_nil]
    exact List.Perm.refl _
  | some root =>
    rw [hm] at hs hr
    rw [BKMap.fuzzy_search_distance, BKMap.entries]
    have hopt : Option.toList (some root) = [root] := rfl
    rw [hopt]
    have h := fuzzy_toList_perm d hsymm htri q r (stackLen [root]) [root]
      (le_refl _) (by intro n hn; rcases List.mem_cons.mp hn with rfl | hn
                      · exact ⟨hs, hr⟩
                      · cases hn)
    have htll : toListList [root] = root.toList := by
      rw [toListList, toListList, List.append_nil]
    rw [htll] at h
    exact h

/-- Witness for claim C1: a concrete metric on `Fin 4`, a concrete insertion
sequence and query. -/
theorem claim_C1_witness :
    (∀ x y : Fin 4, (fun a b : Fin 4 => (a.1 - b.1) + (b.1 - a.1)) x y
        = (fun a b : Fin 4 => (a.1 - b.1) + (b.1 - a.1)) y x) ∧
    (∀ x y : Fin 4, (fun a b : Fin 4 => (a.1 - b.1) + (b.1 - a.1)) x y = 0
        ↔ x = y) ∧
    (∀ x y z : Fin 4, (fun a b : Fin 4 => (a.1 - b.1) + (b.1 - a.1)) x z
        ≤ (fun a b : Fin 4 => (a.1 - b.1) + (b.1 - a.1)) x y
          + (fun a b : Fin 4 => (a.1 - b.1) + (b.1 - a.1)) y z) ∧
    (BKFuzzy.toList (fun a b : Fin 4 => (a.1 - b.1) + (b.1 - a.1))
      ((applyOps (fun a b : Fin 4 => (a.1 - b.1) + (b.1 - a.1))
          [(0, 10, fun v _ => v), (3, 30, fun v _ => v),
           (1, 11, fun v _ => v)]
          (none : BKMap (Fin 4) Nat)).fuzzy_search_distance 2 1)).Perm
      (searchFilter (fun a b : Fin 4 => (a.1 - b.1) + (b.1 - a.1)) 2 1
        (applyOps (fun a b : Fin 4 => (a.1 - b.1) + (b.1 - a.1))
          [(0, 10, fun v _ => v), (3, 30, fun v _ => v),
           (1, 11, fun v _ => v)]
          (none : BKMap (Fin 4) Nat)).entries) :=
  ⟨by decide, by decide, by decide,
    claim_C1_radius_search_exact _ (by decide) (by decide) (by decide) _ 2 1⟩

/-- Under the metric axioms and the tree invariants, the insertion loop finds
a distance-0 collision exactly when one exists among the stored entries: the
callback receives `Some(new value)` if and only if some stored entry is at
metric distance 0 from the inserted key. -/
theorem BKNode.insertAM_merges_iff {K V : Type} (d : K → K → Nat)
    (hsymm : ∀ x y, d x y = d y x)
    (htri : ∀ x y z, d x z ≤ d x y + d y z)
    (key : K) (value : V) (modify : V → Option V → V) (n : BKNode K V)
    (hs : n.SortedInv) (hr : n.RouteInv d) :
    (∃ p ∈ n.toList, d key p.1 = 0)
      ↔ ∃ v0, (n.insertAM d key value modify).2 = [(v0, some value)] := by
  constructor
  · intro hex
    induction n using BKNode.inductionOn with
    | ind nd nk nv cs ih =>
      obtain ⟨p, hp, hp0⟩ := hex
      by_cases h0 : d key nk = 0
      · refine ⟨nv, ?_⟩
        rw [BKNode.insertAM]
        dsimp only
        rw [if_pos h0]
      · rcases (BKNode.mem_toList_mk nd nk nv cs).mp hp with rfl | ⟨c, hc, hpc⟩
        · exact absurd hp0 h0
        · have hroute := BKNode.route_at_root hr c
            (by rw [BKNode.children_mk]; exact hc) p hpc
          rw [BKNode.key_mk] at hroute
          have hcd : c.dist = d key nk := by
            have ht1 := htri key p.1 nk
            have ht2 := htri p.1 key nk
            have hsy := hsymm p.1 key
            omega
          have hsrt : List.Pairwise (fun a b : BKNode K V => a.dist < b.dist)
              cs := ((BKNode.sortedInv_mk nd nk nv cs).mp hs).1
          rcases insertChildren_spec d key value modify (d key nk) cs with
            ⟨pre, c1, post, hcs, hpre, hc1d, hres⟩ |
            ⟨pre, post, hcs, hpre, hhead, hres⟩
          · have hceq : c = c1 := by
              rw [hcs] at hc hsrt
              rcases List.mem_append.mp hc with hc | hc
              · have := hpre c hc
                omega
              · rcases List.mem_cons.mp hc with rfl | hc
                · rfl
                · exfalso
                  have hp1 := (List.pairwise_append.mp hsrt).2.1
                  have := (List.pairwise_cons.mp hp1).1 c hc
                  omega
            subst hceq
            have hcin : c ∈ cs := by rw [hcs]; simp
            have hrec := ih c hcin
              (BKNode.sortedInv_child hs (by rw [BKNode.children_mk]; exact hcin))
              (BKNode.routeInv_child hr (by rw [BKNode.children_mk]; exact hcin))
              ⟨p, hpc, hp0⟩
            obtain ⟨v0, hv0⟩ := hrec
            refine ⟨v0, ?_⟩
            rw [BKNode.insertAM]
            dsimp only
            rw [if_neg h0, hres]
            exact hv0
          · exfalso
            rw [hcs] at hc hsrt
            rcases List.mem_append.mp hc with hc | hc
            · have := hpre c hc
              omega
            · cases post with
              | nil => cases hc
              | cons p0 rest =>
                have hh : d key nk < p0.dist := hhead p0 rfl
                rcases List.mem_cons.mp hc with rfl | hc
                · omega
                · have hp1 := (List.pairwise_append.mp hsrt).2.1
                  have := (List.pairwise_cons.mp hp1).1 c hc
                  omega
  · rintro ⟨v0, hv0⟩
    rcases BKNode.insertAM_toList_spec d key value modify n with
      ⟨l1, k0, w0, l2, hk0, hctl, _, hlog⟩ | ⟨l1, l2, _, _, hlog⟩
    · exact ⟨(k0, w0), by rw [hctl]; simp, hk0⟩
    · rw [hlog] at hv0
      cases hv0

/-- Claim C3: every `insert_and_modify` call (and hence `insert` /
`insert_or_modify`) invokes the callback exactly once; it receives
`Some(incoming value)` with the existing stored value as mutable subject
exactly when a stored entry sits at metric distance 0 from the inserted key,
and otherwise receives `None` with the incoming value as subject, which is
then stored. -/
theorem claim_C3_combine_exactly_once {K V : Type} (d : K → K → Nat)
    (hsymm : ∀ x y, d x y = d y x)
    (htri : ∀ x y z, d x z ≤ d x y + d y z)
    (ops : List (K × V × (V → Option V → V)))
    (key : K) (value : V) (modify : V → Option V → V) :
    (BKMap.insert_and_modify d key value modify
        (applyOps d ops (none : BKMap K V))).2.length = 1 ∧
    ((∃ p ∈ (applyOps d ops (none : BKMap K V)).entries, d key p.1 = 0) →
      ∃ l1 k0 v0 l2, d key k0 = 0 ∧
        (applyOps d ops (none : BKMap K V)).entries = l1 ++ (k0, v0) :: l2 ∧
        (BKMap.insert_and_modify d key value modify
          (applyOps d ops (none : BKMap K V))).2 = [(v0, some value)] ∧
        (BKMap.insert_and_modify d key value modify
          (applyOps d ops (none : BKMap K V))).1.entries
            = l1 ++ (k0, modify v0 (some value)) :: l2) ∧
    ((¬ ∃ p ∈ (applyOps d ops (none : BKMap K V)).entries, d key p.1 = 0) →
      (BKMap.insert_and_modify d key value modify
        (applyOps d ops (none : BKMap K V))).2 = [(value, none)] ∧
      ∃ l1 l2, (applyOps d ops (none : BKMap K V)).entries = l1 ++ l2 ∧
        (BKMap.insert_and_modify d key value modify
          (applyOps d ops (none : BKMap K V))).1.entries
            = l1 ++ (key, modify value none) :: l2) := by
  have hs := applyOps_sortedInv d ops (none : BKMap K V) trivial
  have hr := applyOps_routeInv d ops (none : BKMap K V) trivial
  cases hm : applyOps d ops (none : BKMap K V) with
  | none =>
    refine ⟨rfl, ?_, ?_⟩
    · rintro ⟨p, hp, -⟩
      rw [BKMap.entries] at hp
      cases hp
    · intro
      refine ⟨rfl, [], [], rfl, ?_⟩
      rw [BKMap.insert_and_modify, BKMap.entries, BKNode.toList_mk]
      rfl
  | some root =>
    rw [hm] at hs hr
    rw [BKMap.insert_and_modify]
    dsimp only
    rw [BKMap.entries, BKMap.entries]
    have hmerge := BKNode.insertAM_merges_iff d hsymm htri key value modify
      root hs hr
    rcases hspec : BKNode.insertAM d key value modify root with ⟨root2, log⟩
    have hspec' := BKNode.insertAM_toList_spec d key value modify root
    rw [hspec] at hspec' hmerge
    dsimp only at hspec' hmerge ⊢
    rcases hspec' with ⟨l1, k0, v0, l2, hk0, hctl, hctl', hlog⟩ |
      ⟨l1, l2, hctl, hctl', hlog⟩
    · refine ⟨by rw [hlog]; rfl, ?_, ?_⟩
      · intro
        exact ⟨l1, k0, v0, l2, hk0, hctl, hlog, hctl'⟩
      · intro hnex
        exact absurd ⟨(k0, v0), by rw [hctl]; simp, hk0⟩ hnex
    · refine ⟨by rw [hlog]; rfl, ?_, ?_⟩
      · intro hex
        obtain ⟨v1, hv1⟩ := hmerge.mp hex
        rw [hlog] at hv1
        cases hv1
      · intro
        exact ⟨hlog, l1, l2, hctl, hctl'⟩

/-- Witness for claim C3 at a concrete metric and insertion sequence. -/
theorem claim_C3_witness :
    (BKMap.insert_and_modify (fun a b : Fin 4 => (a.1 - b.1) + (b.1 - a.1))
        2 22 (fun v _ => v + 1)
        (applyOps (fun a b : Fin 4 => (a.1 - b.1) + (b.1 - a.1))
          [(0, 10, fun v _ => v), (2, 20, fun v _ => v)]
          (none : BKMap (Fin 4) Nat))).2.length = 1 := by
  have h := claim_C3_combine_exactly_once
    (fun a b : Fin 4 => (a.1 - b.1) + (b.1 - a.1)) (by decide) (by decide)
    [(0, 10, fun v _ => v), (2, 20, fun v _ => v)] 2 22 (fun v _ => v + 1)
  exact h.1

/-- Embeds a sequence of plain `insert` calls. -/
def applyInserts {K V : Type} (d : K → K → Nat) (ops : List (K × V))
    (m : BKMap K V) : BKMap K V :=
  ops.foldl (fun acc p => BKMap.insert d p.1 p.2 acc) m

/-- `insert` is `insert_and_modify` with the overwrite-on-collision
callback. -/
theorem BKMap.insert_eq {K V : Type} (d : K → K → Nat) (key : K) (value : V)
    (m : BKMap K V) :
    BKMap.insert d key value m
      = (BKMap.insert_and_modify d key value
          (fun old new => match new with | some n => n | none => old) m).1 :=
  rfl

theorem applyInserts_append {K V : Type} (d : K → K → Nat)
    (ops₁ ops₂ : List (K × V)) (m : BKMap K V) :
    applyInserts d (ops₁ ++ ops₂) m
      = applyInserts d ops₂ (applyInserts d ops₁ m) := by
  rw [applyInserts, applyInserts, applyInserts, List.foldl_append]

theorem applyInserts_sortedInv {K V : Type} (d : K → K → Nat)
    (ops : List (K × V)) (m : BKMap K V) (hs : m.SortedInv) :
    (applyInserts d ops m).SortedInv := by
  induction ops generalizing m with
  | nil => exact hs
  | cons op ops ih =>
    have hstep : (BKMap.insert d op.1 op.2 m).SortedInv := by
      rw [BKMap.insert_eq]
      exact BKMap.insert_and_modify_sortedInv d op.1 op.2 _ m hs
    exact ih _ hstep

theorem applyInserts_routeInv {K V : Type} (d : K → K → Nat)
    (ops : List (K × V)) (m : BKMap K V) (hr : m.RouteInv d) :
    (applyInserts d ops m).RouteInv d := by
  induction ops generalizing m with
  | nil => exact hr
  | cons op ops ih =>
    have hstep : (BKMap.insert d op.1 op.2 m).RouteInv d := by
      rw [BKMap.insert_eq]
      exact BKMap.insert_and_modify_routeInv d op.1 op.2 _ m hr
    exact ih _ hstep

/-- Pairwise distinctness of the stored entries under the metric: no two
stored entries are at distance 0 from each other. -/
def pairwiseDistinct {K V : Type} (d : K → K → Nat) (m : BKMap K V) : Prop :=
  m.entries.Pairwise fun p1 p2 => d p1.1 p2.1 ≠ 0

theorem pairwise_fst_replace {K V : Type} {R : K → K → Prop}
    {l1 l2 : List (K × V)} {k0 : K} {v0 v1 : V}
    (h : (l1 ++ (k0, v0) :: l2).Pairwise fun p q => R p.1 q.1) :
    (l1 ++ (k0, v1) :: l2).Pairwise fun p q => R p.1 q.1 := by
  rw [List.pairwise_append] at h ⊢
  obtain ⟨h1, h2, h3⟩ := h
  rw [List.pairwise_cons] at h2 ⊢
  refine ⟨h1, ⟨fun b hb => h2.1 b hb, h2.2⟩, ?_⟩
  intro a ha b hb
  rcases List.mem_cons.mp hb with rfl | hb
  · exact h3 a ha (k0, v0) (List.mem_cons_self _ _)
  · exact h3 a ha b (List.mem_cons.mpr (Or.inr hb))

theorem BKMap.insert_and_modify_pairwiseDistinct {K V : Type}
    (d : K → K → Nat) (hsymm : ∀ x y, d x y = d y x)
    (htri : ∀ x y z, d x z ≤ d x y + d y z) (key : K) (value : V)
    (modify : V → Option V → V) (m : BKMap K V) (hs : m.SortedInv)
    (hr : m.RouteInv d) (hp : pairwiseDistinct d m) :
    pairwiseDistinct d (BKMap.insert_and_modify d key value modify m).1 := by
  cases m with
  | none =>
    rw [pairwiseDistinct, BKMap.insert_and_modify]
    dsimp only
    rw [BKMap.entries, BKNode.toList_mk]
    simp
  | some root =>
    rw [pairwiseDistinct, BKMap.entries] at hp
    rw [pairwiseDistinct, BKMap.insert_and_modify]
    dsimp only
    rw [BKMap.entries]
    have hmerge := BKNode.insertAM_merges_iff d hsymm htri key value modify
      root hs hr
    rcases BKNode.insertAM_toList_spec d key value modify root with
      ⟨l1, k0, v0, l2, hk0, hctl, hctl2, hlog⟩ | ⟨l1, l2, hctl, hctl2, hlog⟩
    · rw [hctl] at hp
      rw [hctl2]
      exact @pairwise_fst_replace K V (fun a b => d a b ≠ 0) l1 l2 k0 v0
        (modify v0 (some value)) hp
    · rw [hctl2]
      have hfar : ∀ p ∈ l1 ++ l2, d key p.1 ≠ 0 := by
        intro p hpl hp0
        have : ∃ v1, (root.insertAM d key value modify).2
            = [(v1, some value)] :=
          hmerge.mp ⟨p, by rw [hctl]; exact hpl, hp0⟩
        obtain ⟨v1, hv1⟩ := this
        rw [hlog] at hv1
        cases hv1
      rw [hctl] at hp
      rw [List.pairwise_append] at hp ⊢
      obtain ⟨h1, h2, h3⟩ := hp
      refine ⟨h1, ?_, ?_⟩
      · rw [List.pairwise_cons]
        refine ⟨?_, h2⟩
        intro b hb hb0
        exact hfar b (List.mem_append_right _ hb) hb0
      · intro a ha b hb
        rcases List.mem_cons.mp hb with rfl | hb
        · intro ha0
          refine hfar a (List.mem_append_left _ ha) ?_
          rw [hsymm]
          exact ha0
        · exact h3 a ha b hb

/-- If the stored entries are pairwise distinct and `(k, v)` is the one entry
at distance 0 from `k`, the radius-0 brute-force filter returns exactly it. -/
theorem searchFilter_zero_singleton {K V : Type} (d : K → K → Nat) (k : K)
    (v : V) (hkk : d k k = 0) :
    ∀ l : List (K × V),
      (l.Pairwise fun p1 p2 => d p1.1 p2.1 ≠ 0) → (k, v) ∈ l →
      (∀ p ∈ l, d k p.1 = 0 → p = (k, v)) →
      searchFilter d k 0 l = [(0, k, v)] := by
  intro l
  induction l with
  | nil => intro _ hm; cases hm
  | cons x rest ih =>
    intro hpw hm hall
    obtain ⟨hx, hrest⟩ := List.pairwise_cons.mp hpw
    by_cases hxe : x = (k, v)
    · subst hxe
      rw [searchFilter_cons, if_pos (by omega), hkk]
      have hnil : searchFilter d k 0 rest = [] := by
        apply searchFilter_nil_of_far
        intro p hp
        by_contra hc
        have hp0 : d k p.1 = 0 := by omega
        have hpe := hall p (List.mem_cons.mpr (Or.inr hp)) hp0
        subst hpe
        exact hx _ hp hkk
      rw [hnil]
      simp [hkk]
    · have hx0 : d k x.1 ≠ 0 := fun h0 =>
        hxe (hall x (List.mem_cons_self _ _) h0)
      rw [searchFilter_cons]
      rw [if_neg (by omega), List.nil_append]
      refine ih hrest ?_ ?_
      · rcases List.mem_cons.mp hm with he | hm
        · exact absurd he.symm hxe
        · exact hm
      · intro p hp hp0
        exact hall p (List.mem_cons.mpr (Or.inr hp)) hp0

theorem applyInserts_pairwiseDistinct {K V : Type} (d : K → K → Nat)
    (hsymm : ∀ x y, d x y = d y x)
    (htri : ∀ x y z, d x z ≤ d x y + d y z)
    (ops : List (K × V)) (m : BKMap K V) (hs : m.SortedInv)
    (hr : m.RouteInv d) (hp : pairwiseDistinct d m) :
    pairwiseDistinct d (applyInserts d ops m) := by
  induction ops generalizing m with
  | nil => exact hp
  | cons op ops ih =>
    have h1 : (BKMap.insert d op.1 op.2 m).SortedInv := by
      rw [BKMap.insert_eq]
      exact BKMap.insert_and_modify_sortedInv d op.1 op.2 _ m hs
    have h2 : (BKMap.insert d op.1 op.2 m).RouteInv d := by
      rw [BKMap.insert_eq]
      exact BKMap.insert_and_modify_routeInv d op.1 op.2 _ m hr
    have h3 : pairwiseDistinct d (BKMap.insert d op.1 op.2 m) := by
      rw [BKMap.insert_eq]
      exact BKMap.insert_and_modify_pairwiseDistinct d hsymm htri op.1 op.2
        _ m hs hr hp
    exact ih _ h1 h2 h3

/-- One later insertion at nonzero distance from `k` keeps the unique `(k,v)`
entry and the distance-0 uniqueness of `k` intact. -/
theorem BKMap.insert_keeps_entry {K V : Type} (d : K → K → Nat)
    (hsymm : ∀ x y, d x y = d y x)
    (hzero : ∀ x y, d x y = 0 ↔ x = y)
    (htri : ∀ x y z, d x z ≤ d x y + d y z)
    (k : K) (v : V) (k2 : K) (v2 : V) (m : BKMap K V)
    (hkv : (k, v) ∈ m.entries)
    (huniq : ∀ p ∈ m.entries, d k p.1 = 0 → p = (k, v))
    (hs : m.SortedInv) (hr : m.RouteInv d)
    (hk2 : d k k2 ≠ 0) :
    (k, v) ∈ (BKMap.insert d k2 v2 m).entries ∧
    (∀ p ∈ (BKMap.insert d k2 v2 m).entries, d k p.1 = 0 → p = (k, v)) := by
  cases m with
  | none =>
    rw [BKMap.entries] at hkv
    cases hkv
  | some root =>
    rw [BKMap.entries] at hkv huniq
    rw [BKMap.insert_eq, BKMap.insert_and_modify]
    dsimp only
    rw [BKMap.entries]
    rcases BKNode.insertAM_toList_spec d k2 v2
        (fun old new => match new with | some n => n | none => old) root with
      ⟨l1, k0, v0, l2, hk20, hctl, hctl2, hlog⟩ | ⟨l1, l2, hctl, hctl2, hlog⟩
    · rw [hctl] at hkv huniq
      rw [hctl2]
      have hk0ne : k0 ≠ k := by
        intro he
        subst he
        rw [hsymm] at hk20
        exact hk2 hk20
      constructor
      · rcases List.mem_append.mp hkv with hkv | hkv
        · exact List.mem_append_left _ hkv
        · rcases List.mem_cons.mp hkv with he | hkv
          · exact absurd (congrArg Prod.fst he).symm hk0ne
          · exact List.mem_append_right _ (List.mem_cons.mpr (Or.inr hkv))
      · intro p hp hp0
        rcases List.mem_append.mp hp with hp | hp
        · exact huniq p (List.mem_append_left _ hp) hp0
        · rcases List.mem_cons.mp hp with rfl | hp
          · exfalso
            have : k = k0 := (hzero k k0).mp hp0
            exact hk0ne this.symm
          · exact huniq p (List.mem_append_right _ (List.mem_cons.mpr
              (Or.inr hp))) hp0
    · rw [hctl] at hkv huniq
      rw [hctl2]
      constructor
      · rcases List.mem_append.mp hkv with hkv | hkv
        · exact List.mem_append_left _ hkv
        · exact List.mem_append_right _ (List.mem_cons.mpr (Or.inr hkv))
      · intro p hp hp0
        rcases List.mem_append.mp hp with hp | hp
        · exact huniq p (List.mem_append_left _ hp) hp0
        · rcases List.mem_cons.mp hp with rfl | hp
          · exact absurd hp0 hk2
          · exact huniq p (List.mem_append_right _ hp) hp0

/-- Inserting `(k, v)` when no other stored key is at distance 0 from `k`
makes `(k, v)` a stored entry and the unique entry at distance 0 from `k`. -/
theorem BKMap.insert_creates_entry {K V : Type} (d : K → K → Nat)
    (hsymm : ∀ x y, d x y = d y x)
    (hzero : ∀ x y, d x y = 0 ↔ x = y)
    (htri : ∀ x y z, d x z ≤ d x y + d y z)
    (k : K) (v : V) (m : BKMap K V)
    (h1 : ∀ p ∈ m.entries, d k p.1 = 0 → p.1 = k)
    (hdist : pairwiseDistinct d m) (hs : m.SortedInv) (hr : m.RouteInv d) :
    (k, v) ∈ (BKMap.insert d k v m).entries ∧
    (∀ p ∈ (BKMap.insert d k v m).entries, d k p.1 = 0 → p = (k, v)) := by
  have hkk : d k k = 0 := (hzero k k).mpr rfl
  cases m with
  | none =>
    rw [BKMap.insert_eq, BKMap.insert_and_modify]
    dsimp only
    rw [BKMap.entries, BKNode.toList_mk]
    constructor
    · exact List.mem_cons_self _ _
    · intro p hp _
      simp only [List.map_nil, List.flatten_nil] at hp
      rcases List.mem_cons.mp hp with rfl | hp
      · rfl
      · cases hp
  | some root =>
    rw [BKMap.entries] at h1
    rw [pairwiseDistinct, BKMap.entries] at hdist
    have hmerge := BKNode.insertAM_merges_iff d hsymm htri k v
      (fun old new => match new with | some n => n | none => old) root hs hr
    rw [BKMap.insert_eq, BKMap.insert_and_modify]
    dsimp only
    rw [BKMap.entries]
    rcases BKNode.insertAM_toList_spec d k v
        (fun old new => match new with | some n => n | none => old) root with
      ⟨l1, k0, v0, l2, hk0, hctl, hctl2, hlog⟩ | ⟨l1, l2, hctl, hctl2, hlog⟩
    · have hk0k : k0 = k := h1 (k0, v0) (by rw [hctl]; simp) hk0
      subst hk0k
      rw [hctl] at h1 hdist
      rw [hctl2]
      rw [List.pairwise_append] at hdist
      obtain ⟨hd1, hd2, hd3⟩ := hdist
      constructor
      · exact List.mem_append_right _ (List.mem_cons_self _ _)
      · intro p hp hp0
        rcases List.mem_append.mp hp with hp | hp
        · exfalso
          have hpk : p.1 = k0 := h1 p (List.mem_append_left _ hp) hp0
          have := hd3 p hp (k0, v0) (List.mem_cons_self _ _)
          rw [hpk] at this
          exact this hkk
        · rcases List.mem_cons.mp hp with rfl | hp
          · rfl
          · exfalso
            have := (List.pairwise_cons.mp hd2).1 p hp
            dsimp only at this
            have hpk : p.1 = k0 := h1 p (by simp [hp]) hp0
            rw [hpk] at this
            exact this hkk
    · have hnone : ∀ p ∈ l1 ++ l2, d k p.1 ≠ 0 := by
        intro p hpl hp0
        obtain ⟨v1, hv1⟩ := hmerge.mp ⟨p, by rw [hctl]; exact hpl, hp0⟩
        rw [hlog] at hv1
        cases hv1
      rw [hctl2]
      constructor
      · exact List.mem_append_right _ (List.mem_cons_self _ _)
      · intro p hp hp0
        rcases List.mem_append.mp hp with hp | hp
        · exact absurd hp0 (hnone p (List.mem_append_left _ hp))
        · rcases List.mem_cons.mp hp with rfl | hp
          · rfl
          · exact absurd hp0 (hnone p (List.mem_append_right _ hp))

theorem applyInserts_cons {K V : Type} (d : K → K → Nat) (p : K × V)
    (ops : List (K × V)) (m : BKMap K V) :
    applyInserts d (p :: ops) m
      = applyInserts d ops (BKMap.insert d p.1 p.2 m) := rfl

/-- If `(k, v)` is stored, is the unique entry at distance 0 from `k`, and no
later insertion collides with `k`, then the later insertions preserve this
and the radius-0 search returns exactly `(0, k, v)`. -/
theorem applyInserts_roundtrip_aux {K V : Type} (d : K → K → Nat)
    (hsymm : ∀ x y, d x y = d y x)
    (hzero : ∀ x y, d x y = 0 ↔ x = y)
    (htri : ∀ x y z, d x z ≤ d x y + d y z) (k : K) (v : V) :
    ∀ (ops : List (K × V)) (m : BKMap K V),
      (k, v) ∈ m.entries →
      (∀ p ∈ m.entries, d k p.1 = 0 → p = (k, v)) →
      pairwiseDistinct d m → m.SortedInv → m.RouteInv d →
      (∀ p ∈ ops, d k p.1 ≠ 0) →
      BKFuzzy.toList d
        ((applyInserts d ops m).fuzzy_search_distance k 0) = [(0, k, v)] := by
  intro ops
  induction ops with
  | nil =>
    intro m hkv huniq hdist hs hr _
    cases m with
    | none =>
      rw [BKMap.entries] at hkv
      cases hkv
    | some root =>
      have hperm := fuzzy_toList_perm d hsymm htri k 0 (stackLen [root])
        [root] (le_refl _)
        (by intro n hn
            rcases List.mem_cons.mp hn with rfl | hn
            · exact ⟨hs, hr⟩
            · cases hn)
      have htll : toListList [root] = root.toList := by
        rw [toListList, toListList, List.append_nil]
      rw [htll] at hperm
      rw [BKMap.entries] at hkv huniq
      rw [pairwiseDistinct, BKMap.entries] at hdist
      have hsingle := searchFilter_zero_singleton d k v ((hzero k k).mpr rfl)
        root.toList hdist hkv huniq
      rw [hsingle] at hperm
      rw [applyInserts, List.foldl_nil, BKMap.fuzzy_search_distance]
      have hopt : Option.toList (some root) = [root] := rfl
      rw [hopt]
      exact List.perm_singleton.mp hperm
  | cons p2 ops ih =>
    intro m hkv huniq hdist hs hr h2
    rw [applyInserts_cons]
    have hk2 : d k p2.1 ≠ 0 := h2 p2 (List.mem_cons_self _ _)
    have hkeep := BKMap.insert_keeps_entry d hsymm hzero htri k v p2.1 p2.2
      m hkv huniq hs hr hk2
    refine ih _ hkeep.1 hkeep.2 ?_ ?_ ?_ ?_
    · rw [BKMap.insert_eq]
      exact BKMap.insert_and_modify_pairwiseDistinct d hsymm htri p2.1 p2.2
        _ m hs hr hdist
    · rw [BKMap.insert_eq]
      exact BKMap.insert_and_modify_sortedInv d p2.1 p2.2 _ m hs
    · rw [BKMap.insert_eq]
      exact BKMap.insert_and_modify_routeInv d p2.1 p2.2 _ m hr
    · intro p hp
      exact h2 p (List.mem_cons.mpr (Or.inr hp))

/-- Claim C7: after inserting `(k, v)` when no other stored key of the
earlier insertions is at distance 0 from `k`, and no later insertion collides
with `k` at distance 0, the radius-0 search `search_within(k, 0)` yields
exactly the single triple `(0, k, v)`. -/
theorem claim_C7_roundtrip {K V : Type} (d : K → K → Nat)
    (hsymm : ∀ x y, d x y = d y x)
    (hzero : ∀ x y, d x y = 0 ↔ x = y)
    (htri : ∀ x y z, d x z ≤ d x y + d y z)
    (ops₁ : List (K × V)) (k : K) (v : V) (ops₂ : List (K × V))
    (h1 : ∀ p ∈ (applyInserts d ops₁ (none : BKMap K V)).entries,
      d k p.1 = 0 → p.1 = k)
    (h2 : ∀ p ∈ ops₂, d k p.1 ≠ 0) :
    BKFuzzy.toList d
      ((applyInserts d (ops₁ ++ (k, v) :: ops₂)
        (none : BKMap K V)).fuzzy_search_distance k 0) = [(0, k, v)] := by
  rw [applyInserts_append, applyInserts_cons]
  have hs₁ := applyInserts_sortedInv d ops₁ (none : BKMap K V) trivial
  have hr₁ := applyInserts_routeInv d ops₁ (none : BKMap K V) trivial
  have hp₁ := applyInserts_pairwiseDistinct d hsymm htri ops₁
    (none : BKMap K V) trivial trivial (by rw [pairwiseDistinct, BKMap.entries]; exact List.Pairwise.nil)
  have hcreate := BKMap.insert_creates_entry d hsymm hzero htri k v
    (applyInserts d ops₁ (none : BKMap K V)) h1 hp₁ hs₁ hr₁
  refine applyInserts_roundtrip_aux d hsymm hzero htri k v ops₂ _
    hcreate.1 hcreate.2 ?_ ?_ ?_ h2
  · rw [BKMap.insert_eq]
    exact BKMap.insert_and_modify_pairwiseDistinct d hsymm htri k v _ _
      hs₁ hr₁ hp₁
  · rw [BKMap.insert_eq]
    exact BKMap.insert_and_modify_sortedInv d k v _ _ hs₁
  · rw [BKMap.insert_eq]
    exact BKMap.insert_and_modify_routeInv d k v _ _ hr₁

/-- Witness for claim C7 at a concrete metric and insertion sequences. -/
theorem claim_C7_witness :
    BKFuzzy.toList (fun a b : Fin 4 => (a.1 - b.1) + (b.1 - a.1))
      ((applyInserts (fun a b : Fin 4 => (a.1 - b.1) + (b.1 - a.1))
        ([(0, 10)] ++ (2, 22) :: [(3, 33)])
        (none : BKMap (Fin 4) Nat)).fuzzy_search_distance 2 0)
      = [(0, 2, 22)] :=
  claim_C7_roundtrip (fun a b : Fin 4 => (a.1 - b.1) + (b.1 - a.1))
    (by decide) (by decide) (by decide) [(0, 10)] 2 22 [(3, 33)]
    (by decide) (by decide)

/-! ## K-nearest search, modelled from the spec

The crate's `src/lib.rs` contains no k-nearest (`search_nearest`) code; the
definitions in this section are modelled from spec §4.4 and §7 alone. -/

/-- Absolute difference on `Nat`. -/
def natAbsDiff (a b : Nat) : Nat := (a - b) + (b - a)

/-- Modelled from the spec: insertion into the results list kept sorted
ascending by distance (spec §4.4 "insert … at the position maintaining
ascending order"; ties keep the older entry first). -/
def insortBy {K V : Type} (e : Nat × K × V) :
    List (Nat × K × V) → List (Nat × K × V)
  | [] => [e]
  | x :: xs => if e.1 < x.1 then e :: x :: xs else x :: insortBy e xs

/-- Modelled from the spec: "if the list now exceeds `count` entries and the
entry at position `count` has a strictly greater distance than the entry at
position `count − 1`, truncate to `count`" (spec §4.4). -/
def truncStep {K V : Type} (count : Nat) (results : List (Nat × K × V)) :
    List (Nat × K × V) :=
  match results[count]?, results[count - 1]? with
  | some a, some b => if b.1 < a.1 then results.take count else results
  | _, _ => results

/-- Total entry weight of a k-nearest traversal stack. -/
def stackLenN {K V : Type} (stack : List (Nat × BKNode K V)) : Nat :=
  (stack.map fun p => p.2.len).sum

/-- Modelled from the spec: the main k-nearest loop over a stack of
`(reference_distance, node)` pairs (spec §4.4).  `bound` is the distance of
the `count`-th best result so far (absent while fewer than `count` results
exist).  A node whose edge distance differs from the reference distance by
more than the bound is discarded with its subtree; otherwise its real
distance is computed, the in-window children are pushed with the new
reference distance, and the node's entry is inserted into the sorted results
(with tie-preserving truncation) when it is within the bound. -/
def nearLoop {K V : Type} (d : K → K → Nat) (q : K) (count : Nat) :
    List (Nat × BKNode K V) → List (Nat × K × V) → List (Nat × K × V)
  | [], results => results
  | (ref, n) :: rest, results =>
    match results[count - 1]? with
    | some b =>
      if b.1 < natAbsDiff n.dist ref then nearLoop d q count rest results
      else
        nearLoop d q count
          (((n.children_around (d q n.key) b.1).map
            fun c => (d q n.key, c)).reverse ++ rest)
          (if d q n.key ≤ b.1 then
            truncStep count (insortBy (d q n.key, n.key, n.value) results)
          else results)
    | none =>
      nearLoop d q count
        ((n.children.map fun c => (d q n.key, c)).reverse ++ rest)
        (truncStep count (insortBy (d q n.key, n.key, n.value) results))
termination_by stack _ => stackLenN stack
decreasing_by
  · simp only [stackLenN, List.map_cons, List.sum_cons]
    have := BKNode.len_pos n
    omega
  · simp only [stackLenN, List.map_append, List.map_cons, List.sum_append,
      List.sum_cons, List.map_reverse, List.sum_reverse, List.map_map]
    have h1 : ((n.children_around (d q n.key) b.1).map
        ((fun p => BKNode.len p.2) ∘ (fun c => (d q n.key, c)))).sum
        ≤ (n.children.map BKNode.len).sum := by
      apply List.Sublist.sum_le_sum
      · exact List.Sublist.map _ (BKNode.children_around_sublist n _ _)
      · intro x _; exact Nat.zero_le x
    have h2 : (n.children.map BKNode.len).sum + 1 = n.len := by
      cases n with
      | mk nd nk nv cs => rw [BKNode.len_mk, BKNode.children]
    omega
  · simp only [stackLenN, List.map_append, List.map_cons, List.sum_append,
      List.sum_cons, List.map_reverse, List.sum_reverse, List.map_map]
    have h2 : (n.children.map BKNode.len).sum + 1 = n.len := by
      cases n with
      | mk nd nk nv cs => rw [BKNode.len_mk, BKNode.children]
    have h1 : (n.children.map
        ((fun p => BKNode.len p.2) ∘ (fun c => (d q n.key, c)))).sum
        = (n.children.map BKNode.len).sum := by
      congr 1
    omega

/-- Modelled from the spec: `search_nearest(query, count)` — `count = 0`
returns the empty list (spec §7); otherwise the loop starts at the root with
a dummy reference distance of 0 (harmless: with no results yet the bound is
absent, so the pre-filter cannot discard the root). -/
def BKMap.search_nearest {K V : Type} (d : K → K → Nat) (q : K) (count : Nat)
    (m : BKMap K V) : List (Nat × K × V) :=
  if count = 0 then []
  else nearLoop d q count ((Option.toList m).map fun n => (0, n)) []

/-- Insertion sort by distance (the reference order for the brute force). -/
def sortD {K V : Type} (l : List (Nat × K × V)) : List (Nat × K × V) :=
  l.foldr insortBy []

/-- Reference definition (from the spec): the tie-complete top-`count` of a
list of `(distance, key, value)` triples — the `count` smallest by distance
together with every entry tied with the `count`-th smallest distance; all of
them when fewer than `count` exist; empty for `count = 0`. -/
def tieTop {K V : Type} (count : Nat) (l : List (Nat × K × V)) :
    List (Nat × K × V) :=
  if count = 0 then []
  else
    match (sortD l)[count - 1]? with
    | none => sortD l
    | some t => (sortD l).filter fun e => e.1 ≤ t.1

/-- The brute-force k-nearest reference: all stored entries with their
distances, tie-completely truncated to the `count` smallest. -/
def bruteNearest {K V : Type} (d : K → K → Nat) (q : K) (count : Nat)
    (m : BKMap K V) : List (Nat × K × V) :=
  tieTop count (m.entries.map fun p => (d q p.1, p.1, p.2))

theorem insortBy_perm {K V : Type} (e : Nat × K × V) :
    ∀ l : List (Nat × K × V), (insortBy e l).Perm (e :: l) := by
  intro l
  induction l with
  | nil => exact List.Perm.refl _
  | cons x xs ih =>
    rw [insortBy]
    by_cases h : e.1 < x.1
    · rw [if_pos h]
    · rw [if_neg h]
      exact (ih.cons x).trans (List.Perm.swap e x xs)

theorem insortBy_sorted {K V : Type} (e : Nat × K × V) :
    ∀ l : List (Nat × K × V),
      (l.Pairwise fun a b => a.1 ≤ b.1) →
      (insortBy e l).Pairwise fun a b => a.1 ≤ b.1 := by
  intro l
  induction l with
  | nil => intro _; exact List.pairwise_singleton _ _
  | cons x xs ih =>
    intro hp
    obtain ⟨hx, hxs⟩ := List.pairwise_cons.mp hp
    rw [insortBy]
    by_cases h : e.1 < x.1
    · rw [if_pos h]
      rw [List.pairwise_cons]
      refine ⟨?_, hp⟩
      intro b hb
      rcases List.mem_cons.mp hb with rfl | hb
      · omega
      · have := hx b hb
        omega
    · rw [if_neg h]
      rw [List.pairwise_cons]
      refine ⟨?_, ih hxs⟩
      intro b hb
      have hb' := (insortBy_perm e xs).mem_iff.mp hb
      rcases List.mem_cons.mp hb' with rfl | hb'
      · omega
      · exact hx b hb'

theorem insortBy_decomp {K V : Type} (e : Nat × K × V) :
    ∀ l : List (Nat × K × V), ∃ s1 s2, l = s1 ++ s2 ∧
      insortBy e l = s1 ++ e :: s2 ∧ (∀ y ∈ s1, y.1 ≤ e.1) ∧
      (∀ y, s2.head? = some y → e.1 < y.1) := by
  intro l
  induction l with
  | nil => exact ⟨[], [], rfl, rfl, by simp, by simp⟩
  | cons x xs ih =>
    rw [insortBy]
    by_cases h : e.1 < x.1
    · rw [if_pos h]
      refine ⟨[], x :: xs, rfl, rfl, by simp, ?_⟩
      intro y hy
      rw [List.head?_cons, Option.some.injEq] at hy
      subst hy
      exact h
    · rw [if_neg h]
      obtain ⟨s1, s2, hl, hins, hs1, hs2⟩ := ih
      refine ⟨x :: s1, s2, by rw [hl]; rfl, by rw [hins]; rfl, ?_, hs2⟩
      intro y hy
      rcases List.mem_cons.mp hy with rfl | hy
      · omega
      · exact hs1 y hy

theorem sortD_perm {K V : Type} (l : List (Nat × K × V)) :
    (sortD l).Perm l := by
  induction l with
  | nil => exact List.Perm.refl _
  | cons x xs ih =>
    rw [sortD, List.foldr_cons]
    exact (insortBy_perm x _).trans (ih.cons x)

theorem sortD_sorted {K V : Type} (l : List (Nat × K × V)) :
    (sortD l).Pairwise fun a b => a.1 ≤ b.1 := by
  induction l with
  | nil => exact List.Pairwise.nil
  | cons x xs ih =>
    rw [sortD, List.foldr_cons]
    exact insortBy_sorted x _ ih

theorem sorted_perm_map_fst_eq {K V : Type} {l l' : List (Nat × K × V)}
    (hp : l.Perm l') (hs : l.Pairwise fun a b => a.1 ≤ b.1)
    (hs' : l'.Pairwise fun a b => a.1 ≤ b.1) :
    l.map Prod.fst = l'.map Prod.fst := by
  exact @List.eq_of_perm_of_sorted Nat (fun a b => a ≤ b) inferInstance _ _
    (hp.map Prod.fst) ((List.pairwise_map).mpr hs)
    ((List.pairwise_map).mpr hs')

/-- The distance at position `j` of the sorted entry list (the search bound /
tie threshold when `j = count - 1`). -/
def thetaD {K V : Type} (j : Nat) (l : List (Nat × K × V)) : Option Nat :=
  ((sortD l)[j]?).map Prod.fst

theorem thetaD_eq_get_map {K V : Type} (j : Nat) (l : List (Nat × K × V)) :
    thetaD j l = ((sortD l).map Prod.fst)[j]? := by
  rw [thetaD, List.getElem?_map]

theorem thetaD_congr {K V : Type} (j : Nat) {l l' : List (Nat × K × V)}
    (h : l.Perm l') : thetaD j l = thetaD j l' := by
  rw [thetaD_eq_get_map, thetaD_eq_get_map]
  rw [sorted_perm_map_fst_eq ((sortD_perm l).trans (h.trans (sortD_perm l').symm))
    (sortD_sorted l) (sortD_sorted l')]

theorem thetaD_sorted_list {K V : Type} (j : Nat) {l : List (Nat × K × V)}
    (hs : l.Pairwise fun a b => a.1 ≤ b.1) :
    thetaD j l = (l[j]?).map Prod.fst := by
  rw [thetaD_eq_get_map,
    sorted_perm_map_fst_eq (sortD_perm l) (sortD_sorted l) hs,
    List.getElem?_map]

theorem count_le_of_sorted_getElem {K V : Type} {w : Nat} :
    ∀ (S : List (Nat × K × V)), (S.Pairwise fun a b => a.1 ≤ b.1) →
      ∀ (k : Nat) (a : Nat × K × V), S[k]? = some a → a.1 ≤ w →
      k + 1 ≤ S.countP fun e => decide (e.1 ≤ w) := by
  intro S
  induction S with
  | nil => intro _ k a ha; rw [List.getElem?_nil] at ha; cases ha
  | cons x rest ih =>
    intro hp k a ha haw
    obtain ⟨hx, hrest⟩ := List.pairwise_cons.mp hp
    cases k with
    | zero =>
      rw [List.getElem?_cons_zero, Option.some.injEq] at ha
      subst ha
      rw [List.countP_cons]
      rw [if_pos (by simpa using haw)]
      omega
    | succ k =>
      rw [List.getElem?_cons_succ] at ha
      have hih := ih hrest k a ha haw
      have hxw : x.1 ≤ w := by
        have hmem : a ∈ rest := List.getElem?_mem ha
        have := hx a hmem
        omega
      rw [List.countP_cons, if_pos (by simpa using hxw)]
      omega

theorem sorted_getElem_of_count {K V : Type} {w : Nat} :
    ∀ (S : List (Nat × K × V)), (S.Pairwise fun a b => a.1 ≤ b.1) →
      ∀ (k : Nat), k + 1 ≤ (S.countP fun e => decide (e.1 ≤ w)) →
      ∃ a, S[k]? = some a ∧ a.1 ≤ w := by
  intro S
  induction S with
  | nil => intro _ k hk; rw [List.countP_nil] at hk; omega
  | cons x rest ih =>
    intro hp k hk
    obtain ⟨hx, hrest⟩ := List.pairwise_cons.mp hp
    by_cases hxw : x.1 ≤ w
    · cases k with
      | zero => exact ⟨x, List.getElem?_cons_zero, hxw⟩
      | succ k =>
        rw [List.countP_cons, if_pos (by simpa using hxw)] at hk
        obtain ⟨a, ha, haw⟩ := ih hrest k (by omega)
        exact ⟨a, by rw [List.getElem?_cons_succ]; exact ha, haw⟩
    · exfalso
      have hzero : (x :: rest).countP (fun e => decide (e.1 ≤ w)) = 0 := by
        rw [List.countP_eq_zero]
        intro e he
        rcases List.mem_cons.mp he with rfl | he
        · simpa using hxw
        · have := hx e he
          simp only [decide_eq_true_eq]
          omega
      omega

theorem thetaD_append_le {K V : Type} (j : Nat) {A : List (Nat × K × V)}
    {t : Nat} (h : thetaD j A = some t) (X : List (Nat × K × V)) :
    ∃ t2, thetaD j (A ++ X) = some t2 ∧ t2 ≤ t := by
  rw [thetaD] at h
  rcases ht : (sortD A)[j]? with - | a
  · rw [ht] at h; cases h
  · rw [ht] at h
    simp only [Option.map_some', Option.some.injEq] at h
    have hcount : j + 1 ≤ A.countP fun e => decide (e.1 ≤ t) := by
      have := count_le_of_sorted_getElem (sortD A) (sortD_sorted A) j a ht
        (le_of_eq h)
      rwa [(sortD_perm A).countP_eq] at this
    have hcount2 : j + 1 ≤ (sortD (A ++ X)).countP
        fun e => decide (e.1 ≤ t) := by
      rw [(sortD_perm (A ++ X)).countP_eq, List.countP_append]
      omega
    obtain ⟨a2, ha2, ha2w⟩ := sorted_getElem_of_count (sortD (A ++ X))
      (sortD_sorted (A ++ X)) j hcount2
    exact ⟨a2.1, by rw [thetaD, ha2, Option.map_some'], ha2w⟩

theorem thetaD_append_far {K V : Type} (j : Nat) {A Y : List (Nat × K × V)}
    {t : Nat} (h : thetaD j A = some t) (hY : ∀ y ∈ Y, t < y.1) :
    thetaD j (A ++ Y) = some t := by
  obtain ⟨t2, ht2, ht2le⟩ := thetaD_append_le j h Y
  rcases ha : (sortD (A ++ Y))[j]? with - | a
  · rw [thetaD, ha] at ht2; cases ht2
  · rw [thetaD, ha] at ht2
    simp only [Option.map_some', Option.some.injEq] at ht2
    subst ht2
    have hcount : j + 1 ≤ (A ++ Y).countP fun e => decide (e.1 ≤ a.1) := by
      have := count_le_of_sorted_getElem (sortD (A ++ Y))
        (sortD_sorted (A ++ Y)) j a ha (le_refl _)
      rwa [(sortD_perm (A ++ Y)).countP_eq] at this
    have hYzero : Y.countP (fun e => decide (e.1 ≤ a.1)) = 0 := by
      rw [List.countP_eq_zero]
      intro y hy
      have := hY y hy
      simp only [decide_eq_true_eq]
      omega
    rw [List.countP_append, hYzero] at hcount
    have hA : j + 1 ≤ (sortD A).countP fun e => decide (e.1 ≤ a.1) := by
      rw [(sortD_perm A).countP_eq]
      omega
    obtain ⟨b, hb, hbw⟩ := sorted_getElem_of_count (sortD A)
      (sortD_sorted A) j hA
    rw [thetaD, hb] at h
    simp only [Option.map_some', Option.some.injEq] at h
    rw [thetaD, ha, Option.map_some', Option.some.injEq]
    omega

theorem tieTop_of_theta_none {K V : Type} {count : Nat}
    {l : List (Nat × K × V)} (hc : count ≠ 0)
    (h : thetaD (count - 1) l = none) : tieTop count l = sortD l := by
  rw [tieTop, if_neg hc]
  rcases ht : (sortD l)[count - 1]? with - | t
  · rfl
  · rw [thetaD, ht] at h; cases h

theorem tieTop_of_theta_some {K V : Type} {count : Nat}
    {l : List (Nat × K × V)} {t : Nat} (hc : count ≠ 0)
    (h : thetaD (count - 1) l = some t) :
    tieTop count l = (sortD l).filter fun e => e.1 ≤ t := by
  rw [tieTop, if_neg hc]
  rcases ht : (sortD l)[count - 1]? with - | t0
  · rw [thetaD, ht] at h; cases h
  · rw [thetaD, ht] at h
    simp only [Option.map_some', Option.some.injEq] at h
    dsimp only
    rw [h]

theorem tieTop_perm_filter {K V : Type} {count : Nat}
    {l : List (Nat × K × V)} {t : Nat} (hc : count ≠ 0)
    (h : thetaD (count - 1) l = some t) :
    (tieTop count l).Perm (l.filter fun e => e.1 ≤ t) := by
  rw [tieTop_of_theta_some hc h]
  exact (sortD_perm l).filter _

theorem tieTop_congr {K V : Type} (count : Nat) {l l' : List (Nat × K × V)}
    (h : l.Perm l') : (tieTop count l).Perm (tieTop count l') := by
  by_cases hc : count = 0
  · subst hc
    rw [tieTop, tieTop]
    exact List.Perm.refl _
  · rcases ht : thetaD (count - 1) l with - | t
    · have ht' : thetaD (count - 1) l' = none := by
        rw [← thetaD_congr (count - 1) h]; exact ht
      rw [tieTop_of_theta_none hc ht, tieTop_of_theta_none hc ht']
      exact (sortD_perm l).trans (h.trans (sortD_perm l').symm)
    · have ht' : thetaD (count - 1) l' = some t := by
        rw [← thetaD_congr (count - 1) h]; exact ht
      exact (tieTop_perm_filter hc ht).trans
        ((h.filter _).trans (tieTop_perm_filter hc ht').symm)

/-- Entries strictly beyond the current tie threshold never enter the
tie-complete top-`count`. -/
theorem tieTop_drop_far {K V : Type} {count : Nat} {A Y : List (Nat × K × V)}
    {t : Nat} (hc : count ≠ 0) (h : thetaD (count - 1) A = some t)
    (hY : ∀ y ∈ Y, t < y.1) :
    (tieTop count (A ++ Y)).Perm (tieTop count A) := by
  have hAY := thetaD_append_far (count - 1) h hY
  refine (tieTop_perm_filter hc hAY).trans ?_
  rw [List.filter_append]
  have hnil : Y.filter (fun e => e.1 ≤ t) = [] := by
    rw [List.filter_eq_nil_iff]
    intro y hy
    have := hY y hy
    simp only [decide_eq_true_eq]
    omega
  rw [hnil, List.append_nil]
  exact (tieTop_perm_filter hc h).symm

/-- Truncating to the tie-complete top-`count` early never changes the final
tie-complete top-`count`, whatever entries arrive later. -/
theorem tieTop_absorb {K V : Type} (count : Nat) (A X : List (Nat × K × V)) :
    (tieTop count (tieTop count A ++ X)).Perm (tieTop count (A ++ X)) := by
  have h0 : ∀ l : List (Nat × K × V), tieTop 0 l = [] := by
    intro l
    rw [tieTop, if_pos rfl]
  by_cases hc : count = 0
  · subst hc
    rw [h0, h0]
  · rcases ht : thetaD (count - 1) A with - | t
    · rw [tieTop_of_theta_none hc ht]
      exact tieTop_congr count ((sortD_perm A).append_right X)
    · have hBeq := tieTop_of_theta_some hc ht
      set B := tieTop count A with hB
      set C := (sortD A).filter (fun e => ! decide (e.1 ≤ t)) with hC
      have hBC : (B ++ C).Perm A := by
        rw [hBeq, hC]
        exact (List.filter_append_perm _ (sortD A)).trans (sortD_perm A)
      have hCfar : ∀ c ∈ C, t < c.1 := by
        intro c hcm
        rw [hC] at hcm
        have := List.of_mem_filter hcm
        simp only [Bool.not_eq_true', decide_eq_false_iff_not] at this
        omega
      obtain ⟨t0, ht0, ht0v⟩ : ∃ t0, (sortD A)[count - 1]? = some t0 ∧
          t0.1 = t := by
        rcases ht0 : (sortD A)[count - 1]? with - | t0
        · rw [thetaD, ht0] at ht; cases ht
        · rw [thetaD, ht0] at ht
          simp only [Option.map_some', Option.some.injEq] at ht
          exact ⟨t0, rfl, ht⟩
      have hAc : count - 1 + 1 ≤ (sortD A).countP fun e => decide (e.1 ≤ t) :=
        count_le_of_sorted_getElem (sortD A) (sortD_sorted A) (count - 1) t0
          ht0 (le_of_eq ht0v)
      have hBcount : B.countP (fun e => decide (e.1 ≤ t))
          = (sortD A).countP fun e => decide (e.1 ≤ t) := by
        rw [hBeq, List.countP_filter]
        congr 1
        funext e
        rw [Bool.and_self]
      have hthB : thetaD (count - 1) B = some t := by
        have hBs : count - 1 + 1 ≤ (sortD B).countP
            fun e => decide (e.1 ≤ t) := by
          rw [(sortD_perm B).countP_eq, hBcount]
          exact hAc
        obtain ⟨a, ha, haw⟩ := sorted_getElem_of_count (sortD B)
          (sortD_sorted B) (count - 1) hBs
        have hage : t ≤ a.1 := by
          by_contra hlt
          push_neg at hlt
          have h1 : count - 1 + 1 ≤ (sortD B).countP
              fun e => decide (e.1 ≤ a.1) :=
            count_le_of_sorted_getElem (sortD B) (sortD_sorted B) _ a ha
              (le_refl _)
          have h2 : (sortD B).countP (fun e => decide (e.1 ≤ a.1))
              = (sortD A).countP fun e => decide (e.1 ≤ a.1) := by
            rw [(sortD_perm B).countP_eq, hBeq, List.countP_filter]
            apply List.countP_congr
            intro e _
            by_cases he : e.1 ≤ a.1
            · have : e.1 ≤ t := by omega
              simp [he, this]
            · simp [he]
          rw [h2] at h1
          obtain ⟨b, hb, hbw⟩ := sorted_getElem_of_count (sortD A)
            (sortD_sorted A) (count - 1) h1
          rw [ht0] at hb
          rw [Option.some.injEq] at hb
          subst hb
          omega
        rw [thetaD, ha, Option.map_some', Option.some.injEq]
        omega
      obtain ⟨t2, ht2, ht2le⟩ := thetaD_append_le (count - 1) hthB X
      have hstep1 : (tieTop count (A ++ X)).Perm
          (tieTop count ((B ++ X) ++ C)) := by
        refine (tieTop_congr count (hBC.symm.append_right X)).trans ?_
        apply tieTop_congr
        rw [List.append_assoc, List.append_assoc]
        exact (List.perm_append_comm).append_left B
      refine (hstep1.trans ?_).symm
      exact tieTop_drop_far hc ht2 (fun c hcm => by
        have := hCfar c hcm
        omega)

theorem mem_le_of_sorted_getElem {K V : Type} {S : List (Nat × K × V)}
    (hs : S.Pairwise fun a b => a.1 ≤ b.1) {j : Nat} {b : Nat × K × V}
    (hb : S[j]? = some b) (hlen : S.length ≤ j + 1) :
    ∀ e ∈ S, e.1 ≤ b.1 := by
  intro e he
  obtain ⟨i, hi, hie⟩ := List.mem_iff_getElem.mp he
  have hj : j < S.length := by
    by_contra hcon
    push_neg at hcon
    rw [List.getElem?_eq_none hcon] at hb
    cases hb
  have hbj : S[j] = b := by
    have := List.getElem?_eq_getElem hj
    rw [this] at hb
    exact Option.some_injective _ hb
  rcases Nat.lt_or_ge i j with hij | hij
  · have := (List.pairwise_iff_getElem.mp hs) i j hi hj hij
    rw [hie, hbj] at this
    exact this
  · have : i = j := by omega
    subst this
    rw [hbj] at hie
    rw [← hie]

theorem take_le_of_sorted {K V : Type} {S : List (Nat × K × V)}
    (hs : S.Pairwise fun a b => a.1 ≤ b.1) {count : Nat} (hc : count ≠ 0)
    {b2 : Nat × K × V} (hb2 : S[count - 1]? = some b2) :
    ∀ e ∈ S.take count, e.1 ≤ b2.1 := by
  intro e he
  have hj : count - 1 < S.length := by
    by_contra hcon
    push_neg at hcon
    rw [List.getElem?_eq_none hcon] at hb2
    cases hb2
  have hbj : S[count - 1] = b2 := by
    have := List.getElem?_eq_getElem hj
    rw [this] at hb2
    exact Option.some_injective _ hb2
  obtain ⟨i, hi, hie⟩ := List.mem_take_iff_getElem.mp he
  have hilen : i < S.length := by omega
  have hicount : i < count := by omega
  rcases Nat.lt_or_ge i (count - 1) with hij | hij
  · have := (List.pairwise_iff_getElem.mp hs) i (count - 1) hilen hj hij
    rw [hie, hbj] at this
    exact this
  · have : i = count - 1 := by omega
    subst this
    rw [hbj] at hie
    rw [← hie]

theorem filter_eq_take_of {K V : Type} {t : Nat} :
    ∀ (S : List (Nat × K × V)) (k : Nat),
      (S.Pairwise fun a b => a.1 ≤ b.1) →
      (∀ e ∈ S.take k, e.1 ≤ t) → (∀ a, S[k]? = some a → t < a.1) →
      S.filter (fun e => decide (e.1 ≤ t)) = S.take k := by
  intro S
  induction S with
  | nil => intro k _ _ _; rw [List.filter_nil, List.take_nil]
  | cons x rest ih =>
    intro k hp htake hafter
    obtain ⟨hx, hrest⟩ := List.pairwise_cons.mp hp
    cases k with
    | zero =>
      have hxt : t < x.1 := hafter x List.getElem?_cons_zero
      rw [List.take_zero, List.filter_eq_nil_iff]
      intro e he
      rcases List.mem_cons.mp he with rfl | he
      · simp only [decide_eq_true_eq]
        omega
      · have := hx e he
        simp only [decide_eq_true_eq]
        omega
    | succ k =>
      have hxt : x.1 ≤ t := htake x (by rw [List.take_succ_cons]; exact List.mem_cons_self _ _)
      rw [List.take_succ_cons, List.filter_cons, if_pos (by simpa using hxt)]
      congr 1
      refine ih k hrest ?_ ?_
      · intro e he
        refine htake e ?_
        rw [List.take_succ_cons]
        exact List.mem_cons.mpr (Or.inr he)
      · intro a ha
        exact hafter a (by rw [List.getElem?_cons_succ]; exact ha)

/-- The insert-and-truncate step of the k-nearest loop: starting from a
sorted, tie-closed results list, inserting an entry within the bound (or with
no bound yet) yields a sorted, tie-closed list that is exactly the
tie-complete top-`count` of the old results plus the new entry. -/
theorem truncStep_insort_spec {K V : Type} (count : Nat) (hc : count ≠ 0)
    (x : Nat × K × V) (L : List (Nat × K × V))
    (hsort : L.Pairwise fun a b => a.1 ≤ b.1)
    (hgood : ∀ b, L[count - 1]? = some b → ∀ e ∈ L, e.1 ≤ b.1)
    (hcond : L[count - 1]? = none ∨
      ∃ b, L[count - 1]? = some b ∧ x.1 ≤ b.1) :
    ((truncStep count (insortBy x L)).Pairwise fun a b => a.1 ≤ b.1) ∧
    (∀ b, (truncStep count (insortBy x L))[count - 1]? = some b →
      ∀ e ∈ truncStep count (insortBy x L), e.1 ≤ b.1) ∧
    (truncStep count (insortBy x L)).Perm (tieTop count (L ++ [x])) := by
  have hIs : (insortBy x L).Pairwise fun a b => a.1 ≤ b.1 :=
    insortBy_sorted x L hsort
  have hIperm : (insortBy x L).Perm (L ++ [x]) :=
    (insortBy_perm x L).trans (@List.perm_append_comm _ [x] L)
  have hIlen : (insortBy x L).length = L.length + 1 :=
    hIperm.length_eq.trans (by rw [List.length_append, List.length_cons,
      List.length_nil])
  have hthI : thetaD (count - 1) (L ++ [x])
      = ((insortBy x L)[count - 1]?).map Prod.fst := by
    rw [thetaD_congr (count - 1) hIperm.symm, thetaD_sorted_list _ hIs]
  rcases hcond with hnone | ⟨b, hb, hxb⟩
  · have hlenL : L.length ≤ count - 1 := by
      by_contra hcon
      push_neg at hcon
      rw [List.getElem?_eq_getElem hcon] at hnone
      cases hnone
    have hInone : (insortBy x L)[count]? = none := by
      rw [List.getElem?_eq_none]
      omega
    have htr : truncStep count (insortBy x L) = insortBy x L := by
      rw [truncStep, hInone]
    rw [htr]
    have hgood2 : ∀ b, (insortBy x L)[count - 1]? = some b →
        ∀ e ∈ insortBy x L, e.1 ≤ b.1 := by
      intro b hb
      exact mem_le_of_sorted_getElem hIs hb (by omega)
    refine ⟨hIs, hgood2, ?_⟩
    rcases hIb : (insortBy x L)[count - 1]? with - | b2
    · have hthN : thetaD (count - 1) (L ++ [x]) = none := by
        rw [hthI, hIb]; rfl
      rw [tieTop_of_theta_none hc hthN]
      exact hIperm.trans (sortD_perm _).symm
    · have hthS : thetaD (count - 1) (L ++ [x]) = some b2.1 := by
        rw [hthI, hIb]; rfl
      refine ?_
      have hfil : (L ++ [x]).filter (fun e => decide (e.1 ≤ b2.1)) =
          ((L ++ [x]).filter fun e => decide (e.1 ≤ b2.1)) := rfl
      have hall : ∀ e ∈ insortBy x L, e.1 ≤ b2.1 := hgood2 b2 hIb
      have hfeq : (insortBy x L).filter (fun e => decide (e.1 ≤ b2.1))
          = insortBy x L := by
        rw [List.filter_eq_self]
        intro e he
        simpa using hall e he
      refine (hIperm.trans ?_).trans (tieTop_perm_filter hc hthS).symm
      refine hIperm.symm.trans ?_
      rw [← hfeq]
      exact hIperm.filter _
  · have hlenL : count - 1 < L.length := by
      by_contra hcon
      push_neg at hcon
      rw [List.getElem?_eq_none hcon] at hb
      cases hb
    have hcountI : count < (insortBy x L).length := by omega
    have hcount1I : count - 1 < (insortBy x L).length := by omega
    have hIa : (insortBy x L)[count]? = some (insortBy x L)[count] :=
      List.getElem?_eq_getElem hcountI
    have hIb2 : (insortBy x L)[count - 1]?
        = some (insortBy x L)[count - 1] :=
      List.getElem?_eq_getElem hcount1I
    have hallL : ∀ e ∈ L, e.1 ≤ b.1 := hgood b hb
    have hallI : ∀ e ∈ insortBy x L, e.1 ≤ b.1 := by
      intro e he
      have := hIperm.mem_iff.mp he
      rcases List.mem_append.mp this with he2 | he2
      · exact hallL e he2
      · rcases List.mem_cons.mp he2 with rfl | he2
        · exact hxb
        · cases he2
    have hthS : thetaD (count - 1) (L ++ [x])
        = some ((insortBy x L)[count - 1]).1 := by
      rw [hthI, hIb2]; rfl
    have hb2a : ((insortBy x L)[count - 1]).1 ≤ ((insortBy x L)[count]).1 :=
      (List.pairwise_iff_getElem.mp hIs) _ _ hcount1I hcountI (by omega)
    by_cases htrunc : ((insortBy x L)[count - 1]).1 < ((insortBy x L)[count]).1
    · have htr : truncStep count (insortBy x L)
          = (insortBy x L).take count := by
        rw [truncStep, hIa, hIb2]
        dsimp only
        rw [if_pos htrunc]
      rw [htr]
      have htk : ∀ e ∈ (insortBy x L).take count,
          e.1 ≤ ((insortBy x L)[count - 1]).1 :=
        take_le_of_sorted hIs hc hIb2
      refine ⟨hIs.sublist (List.take_sublist _ _), ?_, ?_⟩
      · intro b3 hb3
        have hb3' : (insortBy x L)[count - 1]? = some b3 := by
          rw [← hb3, List.getElem?_take, if_pos (by omega)]
        rw [hIb2] at hb3'
        rw [Option.some.injEq] at hb3'
        subst hb3'
        exact htk
      · have hfeq : (insortBy x L).filter
            (fun e => decide (e.1 ≤ ((insortBy x L)[count - 1]).1))
            = (insortBy x L).take count := by
          refine filter_eq_take_of _ count hIs htk ?_
          intro a ha
          rw [hIa] at ha
          rw [Option.some.injEq] at ha
          subst ha
          exact htrunc
        rw [← hfeq]
        exact (hIperm.filter _).trans (tieTop_perm_filter hc hthS).symm
    · have htr : truncStep count (insortBy x L) = insortBy x L := by
        rw [truncStep, hIa, hIb2]
        dsimp only
        rw [if_neg htrunc]
      rw [htr]
      have hble : ∀ e ∈ insortBy x L, e.1 ≤ ((insortBy x L)[count - 1]).1 := by
        obtain ⟨s1, s2, hL, hI, hs1, hs2⟩ := insortBy_decomp x L
        rcases Nat.lt_or_ge (count - 1) s1.length with hp | hp
        · have hIeq : (insortBy x L)[count - 1]? = L[count - 1]? := by
            rw [hI, hL, List.getElem?_append, List.getElem?_append,
              if_pos hp, if_pos hp]
          rw [hIb2, hb] at hIeq
          rw [Option.some.injEq] at hIeq
          rw [hIeq]
          exact hallI
        · have hIeq : (insortBy x L)[count]? = L[count - 1]? := by
            rw [hI, hL, List.getElem?_append_right (by omega),
              List.getElem?_append_right hp]
            have h1 : count - s1.length = (count - 1 - s1.length) + 1 := by
              omega
            rw [h1, List.getElem?_cons_succ]
          rw [hIa, hb] at hIeq
          rw [Option.some.injEq] at hIeq
          intro e he
          have h2 : e.1 ≤ b.1 := hallI e he
          have h3 : ((insortBy x L)[count]).1 ≤ ((insortBy x L)[count - 1]).1 := by
            omega
          rw [hIeq] at h3
          omega
      refine ⟨hIs, ?_, ?_⟩
      · intro b3 hb3
        rw [hIb2] at hb3
        rw [Option.some.injEq] at hb3
        subst hb3
        exact hble
      · have hfeq : (insortBy x L).filter
            (fun e => decide (e.1 ≤ ((insortBy x L)[count - 1]).1))
            = insortBy x L := by
          rw [List.filter_eq_self]
          intro e he
          simpa using hble e he
        rw [show insortBy x L = (insortBy x L).filter
            (fun e => decide (e.1 ≤ ((insortBy x L)[count - 1]).1))
          from hfeq.symm]
        exact (hIperm.filter _).trans (tieTop_perm_filter hc hthS).symm

/-- The stored entries of a subtree together with their query distances. -/
def nodeEntries {K V : Type} (d : K → K → Nat) (q : K) (n : BKNode K V) :
    List (Nat × K × V) :=
  n.toList.map fun p => (d q p.1, p.1, p.2)

/-- All entries below a k-nearest traversal stack. -/
def stackEntries {K V : Type} (d : K → K → Nat) (q : K)
    (stack : List (Nat × BKNode K V)) : List (Nat × K × V) :=
  (stack.map fun p => nodeEntries d q p.2).flatten

theorem stackEntries_nil {K V : Type} (d : K → K → Nat) (q : K) :
    stackEntries d q ([] : List (Nat × BKNode K V)) = [] := rfl

theorem stackEntries_cons {K V : Type} (d : K → K → Nat) (q : K)
    (p : Nat × BKNode K V) (rest : List (Nat × BKNode K V)) :
    stackEntries d q (p :: rest)
      = nodeEntries d q p.2 ++ stackEntries d q rest := by
  rw [stackEntries, stackEntries, List.map_cons, List.flatten_cons]

theorem stackEntries_append {K V : Type} (d : K → K → Nat) (q : K)
    (s1 s2 : List (Nat × BKNode K V)) :
    stackEntries d q (s1 ++ s2) = stackEntries d q s1 ++ stackEntries d q s2 := by
  rw [stackEntries, stackEntries, stackEntries, List.map_append,
    List.flatten_append]

theorem stackEntries_perm {K V : Type} (d : K → K → Nat) (q : K)
    {s1 s2 : List (Nat × BKNode K V)} (h : s1.Perm s2) :
    (stackEntries d q s1).Perm (stackEntries d q s2) :=
  (h.map _).flatten

theorem stackEntries_map_mk {K V : Type} (d : K → K → Nat) (q : K) (dn : Nat)
    (cs : List (BKNode K V)) :
    stackEntries d q (cs.map fun c => (dn, c))
      = (cs.map fun c => nodeEntries d q c).flatten := by
  rw [stackEntries, List.map_map]
  rfl

theorem nodeEntries_eq {K V : Type} (d : K → K → Nat) (q : K)
    (n : BKNode K V) :
    nodeEntries d q n = (d q n.key, n.key, n.value) ::
      ((toListList n.children).map fun p => (d q p.1, p.1, p.2)) := by
  rw [nodeEntries, BKNode.toList_eq, List.map_cons]

theorem nearLoop_nil {K V : Type} (d : K → K → Nat) (q : K) (count : Nat)
    (results : List (Nat × K × V)) :
    nearLoop d q count [] results = results := by
  rw [nearLoop]

theorem nearLoop_cons_some {K V : Type} (d : K → K → Nat) (q : K)
    (count : Nat) (ref : Nat) (n : BKNode K V)
    (rest : List (Nat × BKNode K V)) (results : List (Nat × K × V))
    {b : Nat × K × V} (hb : results[count - 1]? = some b) :
    nearLoop d q count ((ref, n) :: rest) results
      = if b.1 < natAbsDiff n.dist ref then nearLoop d q count rest results
        else
          nearLoop d q count
            (((n.children_around (d q n.key) b.1).map
              fun c => (d q n.key, c)).reverse ++ rest)
            (if d q n.key ≤ b.1 then
              truncStep count (insortBy (d q n.key, n.key, n.value) results)
            else results) := by
  rw [nearLoop, hb]

theorem nearLoop_cons_none {K V : Type} (d : K → K → Nat) (q : K)
    (count : Nat) (ref : Nat) (n : BKNode K V)
    (rest : List (Nat × BKNode K V)) (results : List (Nat × K × V))
    (hb : results[count - 1]? = none) :
    nearLoop d q count ((ref, n) :: rest) results
      = nearLoop d q count
          ((n.children.map fun c => (d q n.key, c)).reverse ++ rest)
          (truncStep count (insortBy (d q n.key, n.key, n.value) results)) := by
  rw [nearLoop, hb]

theorem sorted_closed_perm_tieTop {K V : Type} {count : Nat} (hc : count ≠ 0)
    {L : List (Nat × K × V)} (hs : L.Pairwise fun a b => a.1 ≤ b.1)
    (hcl : ∀ b, L[count - 1]? = some b → ∀ e ∈ L, e.1 ≤ b.1) :
    L.Perm (tieTop count L) := by
  rcases hb : L[count - 1]? with - | b
  · rw [tieTop_of_theta_none hc (by rw [thetaD_sorted_list _ hs, hb]; rfl)]
    exact (sortD_perm L).symm
  · have hth : thetaD (count - 1) L = some b.1 := by
      rw [thetaD_sorted_list _ hs, hb]; rfl
    refine (List.Perm.symm ?_)
    refine (tieTop_perm_filter hc hth).trans ?_
    rw [List.filter_eq_self.mpr]
    intro e he
    simpa using hcl b hb e he

theorem tieTop_extend_drop {K V : Type} {count : Nat} (hc : count ≠ 0)
    {L Z Y : List (Nat × K × V)} {t : Nat}
    (hth : thetaD (count - 1) L = some t) (hY : ∀ y ∈ Y, t < y.1) :
    (tieTop count ((L ++ Z) ++ Y)).Perm (tieTop count (L ++ Z)) := by
  obtain ⟨t2, ht2, ht2le⟩ := thetaD_append_le (count - 1) hth Z
  exact tieTop_drop_far hc ht2 fun y hy => by
    have := hY y hy
    omega

theorem child_refBound {K V : Type} (d : K → K → Nat)
    (hsymm : ∀ x y, d x y = d y x)
    (htri : ∀ x y z, d x z ≤ d x y + d y z) (q : K) {n c : BKNode K V}
    (hr : n.RouteInv d) (hcm : c ∈ n.children) :
    ∀ y ∈ c.toList, natAbsDiff c.dist (d q n.key) ≤ d q y.1 := by
  intro y hy
  have hroute := BKNode.route_at_root hr c hcm y hy
  have h1 := htri q y.1 n.key
  have h2 := htri y.1 q n.key
  have h3 := hsymm y.1 q
  rw [natAbsDiff]
  omega

theorem stackLenN_lt_of_sublist {K V : Type} {window : List (BKNode K V)}
    {n : BKNode K V} (hsub : window.Sublist n.children) (dn ref : Nat)
    (rest : List (Nat × BKNode K V)) :
    stackLenN ((window.map fun c => (dn, c)).reverse ++ rest)
      < stackLenN ((ref, n) :: rest) := by
  simp only [stackLenN, List.map_append, List.map_cons, List.sum_append,
    List.sum_cons, List.map_reverse, List.sum_reverse, List.map_map]
  have h1 : (window.map
      ((fun p => BKNode.len p.2) ∘ (fun c => (dn, c)))).sum
      ≤ (n.children.map BKNode.len).sum := by
    apply List.Sublist.sum_le_sum
    · exact List.Sublist.map _ hsub
    · intro x _; exact Nat.zero_le x
  have h2 : (n.children.map BKNode.len).sum + 1 = n.len := by
    cases n with
    | mk nd nk nv cs => rw [BKNode.len_mk, BKNode.children]
  omega

theorem stackEntries_push {K V : Type} (d : K → K → Nat) (q : K) (dn : Nat)
    (window : List (BKNode K V)) :
    stackEntries d q (window.map fun c => (dn, c))
      = (toListList window).map fun p => (d q p.1, p.1, p.2) := by
  rw [stackEntries_map_mk]
  have h1 : (window.map fun c => nodeEntries d q c)
      = (window.map BKNode.toList).map
          (List.map fun p => (d q p.1, p.1, p.2)) := by
    rw [List.map_map]
    rfl
  rw [h1, ← List.map_flatten, toListList_eq]

/-- The k-nearest loop returns, up to order, the tie-complete top-`count` of
the current results plus all entries below the stack; the returned list is
also sorted ascending by distance. -/
theorem nearLoop_perm_aux {K V : Type} (d : K → K → Nat)
    (hsymm : ∀ x y, d x y = d y x)
    (htri : ∀ x y z, d x z ≤ d x y + d y z)
    (q : K) (count : Nat) (hc : count ≠ 0) :
    ∀ (m : Nat) (stack : List (Nat × BKNode K V))
      (results : List (Nat × K × V)),
      stackLenN stack ≤ m →
      (∀ p ∈ stack, p.2.SortedInv ∧ p.2.RouteInv d ∧
        ∀ y ∈ p.2.toList, natAbsDiff p.2.dist p.1 ≤ d q y.1) →
      (results.Pairwise fun a b => a.1 ≤ b.1) →
      (∀ b, results[count - 1]? = some b → ∀ e ∈ results, e.1 ≤ b.1) →
      (nearLoop d q count stack results).Perm
        (tieTop count (results ++ stackEntries d q stack)) ∧
      ((nearLoop d q count stack results).Pairwise fun a b => a.1 ≤ b.1) := by
  intro m
  induction m with
  | zero =>
    intro stack results hle hstack hsort hclosed
    cases stack with
    | nil =>
      rw [nearLoop_nil, stackEntries_nil, List.append_nil]
      exact ⟨sorted_closed_perm_tieTop hc hsort hclosed, hsort⟩
    | cons p rest =>
      exfalso
      have := BKNode.len_pos p.2
      simp only [stackLenN, List.map_cons, List.sum_cons] at hle
      omega
  | succ m ih =>
    intro stack results hle hstack hsort hclosed
    cases stack with
    | nil =>
      rw [nearLoop_nil, stackEntries_nil, List.append_nil]
      exact ⟨sorted_closed_perm_tieTop hc hsort hclosed, hsort⟩
    | cons hd rest =>
      rcases hd with ⟨ref, n⟩
      have hinv := hstack (ref, n) (List.mem_cons_self _ _)
      dsimp only at hinv
      have hrest_inv : ∀ p ∈ rest, p.2.SortedInv ∧ p.2.RouteInv d ∧
          ∀ y ∈ p.2.toList, natAbsDiff p.2.dist p.1 ≤ d q y.1 :=
        fun p hp => hstack p (List.mem_cons.mpr (Or.inr hp))
      have hlen_rest : stackLenN rest ≤ m := by
        have := BKNode.len_pos n
        simp only [stackLenN, List.map_cons, List.sum_cons] at hle ⊢
        omega
      rcases hbq : results[count - 1]? with - | b
      · -- no bound yet: push all children, insert unconditionally
        rw [nearLoop_cons_none d q count ref n rest results hbq]
        have hS1 := truncStep_insort_spec count hc (d q n.key, n.key, n.value)
          results hsort hclosed (Or.inl hbq)
        obtain ⟨hs2, hcl2, hR2⟩ := hS1
        have hsub : (n.children.map fun c => (d q n.key, c)).reverse ++ rest
            = (n.children.map fun c => (d q n.key, c)).reverse ++ rest := rfl
        have hmeas : stackLenN
            ((n.children.map fun c => (d q n.key, c)).reverse ++ rest) ≤ m := by
          have := stackLenN_lt_of_sublist (List.Sublist.refl n.children)
            (d q n.key) ref rest
          simp only [stackLenN, List.map_cons, List.sum_cons] at hle
          simp only [stackLenN, List.map_cons, List.sum_cons] at this ⊢
          omega
        have hRB : ∀ p ∈ (n.children.map fun c => (d q n.key, c)).reverse
            ++ rest, p.2.SortedInv ∧ p.2.RouteInv d ∧
            ∀ y ∈ p.2.toList, natAbsDiff p.2.dist p.1 ≤ d q y.1 := by
          intro p hp
          rcases List.mem_append.mp hp with hp | hp
          · rw [List.mem_reverse] at hp
            obtain ⟨c, hcm, rfl⟩ := List.mem_map.mp hp
            exact ⟨BKNode.sortedInv_child hinv.1 hcm,
              BKNode.routeInv_child hinv.2.1 hcm,
              child_refBound d hsymm htri q hinv.2.1 hcm⟩
          · exact hrest_inv p hp
        obtain ⟨hIH1, hIH2⟩ := ih _ _ hmeas hRB hs2 hcl2
        refine ⟨?_, hIH2⟩
        refine hIH1.trans ?_
        have hSE : (stackEntries d q
            ((n.children.map fun c => (d q n.key, c)).reverse ++ rest)).Perm
            (((toListList n.children).map fun p => (d q p.1, p.1, p.2))
              ++ stackEntries d q rest) := by
          rw [stackEntries_append]
          refine List.Perm.append_right _ ?_
          refine (stackEntries_perm d q (List.reverse_perm _)).trans ?_
          rw [stackEntries_push]
        refine (tieTop_congr count (hSE.append_left _)).trans ?_
        refine (tieTop_congr count (hR2.append_right _)).trans ?_
        refine (tieTop_absorb count _ _).trans ?_
        apply tieTop_congr
        rw [stackEntries_cons, nodeEntries_eq]
        refine Multiset.coe_eq_coe.mp ?_
        simp only [← Multiset.coe_add, ← Multiset.cons_coe]
        simp only [Multiset.add_cons, Multiset.cons_add, Multiset.coe_nil]
        congr 1
        abel
      · -- bound present
        have hthR : thetaD (count - 1) results = some b.1 := by
          rw [thetaD_sorted_list _ hsort, hbq]; rfl
        rw [nearLoop_cons_some d q count ref n rest results hbq]
        by_cases hpf : b.1 < natAbsDiff n.dist ref
        · rw [if_pos hpf]
          obtain ⟨hIH1, hIH2⟩ := ih rest results hlen_rest hrest_inv
            hsort hclosed
          refine ⟨hIH1.trans ?_, hIH2⟩
          have hfar : ∀ y ∈ nodeEntries d q n, b.1 < y.1 := by
            intro y hy
            obtain ⟨p, hpm, rfl⟩ := List.mem_map.mp hy
            have := hinv.2.2 p hpm
            dsimp only
            omega
          refine List.Perm.symm ?_
          rw [stackEntries_cons]
          refine (tieTop_congr count ?_).trans
            (tieTop_extend_drop hc hthR hfar)
          refine Multiset.coe_eq_coe.mp ?_
          simp only [← Multiset.coe_add]
          abel
        · rw [if_neg hpf]
          have hsortc := BKNode.childrenSorted_of_sortedInv hinv.1
          obtain ⟨lo, hi, hdec, hlo, hhi⟩ :=
            children_around_decomp n (d q n.key) b.1 hsortc
          have hwin_sub := BKNode.children_around_sublist n (d q n.key) b.1
          have hmeas : stackLenN
              (((n.children_around (d q n.key) b.1).map
                fun c => (d q n.key, c)).reverse ++ rest) ≤ m := by
            have := stackLenN_lt_of_sublist hwin_sub (d q n.key) ref rest
            simp only [stackLenN, List.map_cons, List.sum_cons] at hle
            simp only [stackLenN, List.map_cons, List.sum_cons] at this ⊢
            omega
          have hRB : ∀ p ∈ ((n.children_around (d q n.key) b.1).map
              fun c => (d q n.key, c)).reverse ++ rest,
              p.2.SortedInv ∧ p.2.RouteInv d ∧
              ∀ y ∈ p.2.toList, natAbsDiff p.2.dist p.1 ≤ d q y.1 := by
            intro p hp
            rcases List.mem_append.mp hp with hp | hp
            · rw [List.mem_reverse] at hp
              obtain ⟨c, hcm, rfl⟩ := List.mem_map.mp hp
              have hcm' : c ∈ n.children := hwin_sub.mem hcm
              exact ⟨BKNode.sortedInv_child hinv.1 hcm',
                BKNode.routeInv_child hinv.2.1 hcm',
                child_refBound d hsymm htri q hinv.2.1 hcm'⟩
            · exact hrest_inv p hp
          have hroute := BKNode.route_at_root hinv.2.1
          have hfarLo : ∀ y ∈ (toListList lo).map
              (fun p => (d q p.1, p.1, p.2)), b.1 < y.1 := by
            intro y hy
            obtain ⟨p, hpm, rfl⟩ := List.mem_map.mp hy
            obtain ⟨c, hcm, hpc⟩ := mem_toListList.mp hpm
            have hcm' : c ∈ n.children := by
              rw [hdec]
              exact List.mem_append_left _ (List.mem_append_left _ hcm)
            have h1 := htri q p.1 n.key
            have h2 := hroute c hcm' p hpc
            have h3 := hlo c hcm
            dsimp only
            omega
          have hfarHi : ∀ y ∈ (toListList hi).map
              (fun p => (d q p.1, p.1, p.2)), b.1 < y.1 := by
            intro y hy
            obtain ⟨p, hpm, rfl⟩ := List.mem_map.mp hy
            obtain ⟨c, hcm, hpc⟩ := mem_toListList.mp hpm
            have hcm' : c ∈ n.children := by
              rw [hdec]
              exact List.mem_append_right _ hcm
            have h1 := htri p.1 q n.key
            have h2 := hroute c hcm' p hpc
            have h3 := hhi c hcm
            have h4 := hsymm p.1 q
            dsimp only
            omega
          have hchildE : ((toListList n.children).map
              fun p => (d q p.1, p.1, p.2))
              = ((toListList lo).map fun p => (d q p.1, p.1, p.2))
                ++ ((toListList (n.children_around (d q n.key) b.1)).map
                    fun p => (d q p.1, p.1, p.2))
                ++ ((toListList hi).map fun p => (d q p.1, p.1, p.2)) := by
            rw [hdec, toListList_append, toListList_append, List.map_append,
              List.map_append]
          have hSE : (stackEntries d q
              (((n.children_around (d q n.key) b.1).map
                fun c => (d q n.key, c)).reverse ++ rest)).Perm
              (((toListList (n.children_around (d q n.key) b.1)).map
                fun p => (d q p.1, p.1, p.2)) ++ stackEntries d q rest) := by
            rw [stackEntries_append]
            refine List.Perm.append_right _ ?_
            refine (stackEntries_perm d q (List.reverse_perm _)).trans ?_
            rw [stackEntries_push]
          by_cases hdn : d q n.key ≤ b.1
          · rw [if_pos hdn]
            have hS1 := truncStep_insort_spec count hc
              (d q n.key, n.key, n.value) results hsort hclosed
              (Or.inr ⟨b, hbq, hdn⟩)
            obtain ⟨hs2, hcl2, hR2⟩ := hS1
            obtain ⟨hIH1, hIH2⟩ := ih _ _ hmeas hRB hs2 hcl2
            refine ⟨?_, hIH2⟩
            refine hIH1.trans ?_
            refine (tieTop_congr count (hSE.append_left _)).trans ?_
            refine (tieTop_congr count (hR2.append_right _)).trans ?_
            refine (tieTop_absorb count _ _).trans ?_
            refine List.Perm.symm ?_
            rw [stackEntries_cons, nodeEntries_eq, hchildE]
            have hrearr : (results ++
                ((d q n.key, n.key, n.value) ::
                  (((toListList lo).map fun p => (d q p.1, p.1, p.2))
                    ++ ((toListList (n.children_around (d q n.key) b.1)).map
                        fun p => (d q p.1, p.1, p.2))
                    ++ ((toListList hi).map fun p => (d q p.1, p.1, p.2)))
                  ++ stackEntries d q rest)).Perm
                ((results ++
                  ((d q n.key, n.key, n.value) ::
                    (((toListList (n.children_around (d q n.key) b.1)).map
                      fun p => (d q p.1, p.1, p.2))
                      ++ stackEntries d q rest)))
                 ++ (((toListList lo).map fun p => (d q p.1, p.1, p.2))
                    ++ ((toListList hi).map fun p => (d q p.1, p.1, p.2)))) := by
              refine Multiset.coe_eq_coe.mp ?_
              simp only [← Multiset.coe_add, ← Multiset.cons_coe]
              simp only [Multiset.add_cons, Multiset.cons_add,
                Multiset.coe_nil]
              congr 1
              abel
            refine (tieTop_congr count hrearr).trans ?_
            have hfarBoth : ∀ y ∈ (((toListList lo).map
                fun p => (d q p.1, p.1, p.2))
                ++ ((toListList hi).map fun p => (d q p.1, p.1, p.2))),
                b.1 < y.1 := by
              intro y hy
              rcases List.mem_append.mp hy with hy | hy
              · exact hfarLo y hy
              · exact hfarHi y hy
            have hform : results ++
                ((d q n.key, n.key, n.value) ::
                  (((toListList (n.children_around (d q n.key) b.1)).map
                    fun p => (d q p.1, p.1, p.2))
                    ++ stackEntries d q rest))
                = results ++
                  ((d q n.key, n.key, n.value) ::
                    (((toListList (n.children_around (d q n.key) b.1)).map
                      fun p => (d q p.1, p.1, p.2))
                      ++ stackEntries d q rest)) := rfl
            refine (tieTop_extend_drop hc hthR hfarBoth).trans ?_
            apply tieTop_congr
            refine Multiset.coe_eq_coe.mp ?_
            simp only [← Multiset.coe_add, ← Multiset.cons_coe]
            simp only [Multiset.add_cons, Multiset.cons_add, Multiset.coe_nil]
            congr 1
            abel
          · rw [if_neg hdn]
            obtain ⟨hIH1, hIH2⟩ := ih _ _ hmeas hRB hsort hclosed
            refine ⟨?_, hIH2⟩
            refine hIH1.trans ?_
            refine (tieTop_congr count (hSE.append_left _)).trans ?_
            refine List.Perm.symm ?_
            rw [stackEntries_cons, nodeEntries_eq, hchildE]
            have hfarAll : ∀ y ∈ ((d q n.key, n.key, n.value) ::
                (((toListList lo).map fun p => (d q p.1, p.1, p.2))
                  ++ ((toListList hi).map fun p => (d q p.1, p.1, p.2)))),
                b.1 < y.1 := by
              intro y hy
              rcases List.mem_cons.mp hy with rfl | hy
              · dsimp only
                omega
              · rcases List.mem_append.mp hy with hy | hy
                · exact hfarLo y hy
                · exact hfarHi y hy
            have hrearr : (results ++
                ((d q n.key, n.key, n.value) ::
                  (((toListList lo).map fun p => (d q p.1, p.1, p.2))
                    ++ ((toListList (n.children_around (d q n.key) b.1)).map
                        fun p => (d q p.1, p.1, p.2))
                    ++ ((toListList hi).map fun p => (d q p.1, p.1, p.2)))
                  ++ stackEntries d q rest)).Perm
                ((results ++
                  (((toListList (n.children_around (d q n.key) b.1)).map
                    fun p => (d q p.1, p.1, p.2))
                    ++ stackEntries d q rest))
                 ++ ((d q n.key, n.key, n.value) ::
                    (((toListList lo).map fun p => (d q p.1, p.1, p.2))
                      ++ ((toListList hi).map
                          fun p => (d q p.1, p.1, p.2))))) := by
              refine Multiset.coe_eq_coe.mp ?_
              simp only [← Multiset.coe_add, ← Multiset.cons_coe]
              simp only [Multiset.add_cons, Multiset.cons_add,
                Multiset.coe_nil]
              congr 1
              abel
            refine (tieTop_congr count hrearr).trans ?_
            refine (tieTop_extend_drop hc hthR hfarAll).trans ?_
            apply tieTop_congr
            exact List.Perm.refl _

theorem tieTop_nil {K V : Type} {count : Nat} (hc : count ≠ 0) :
    tieTop count ([] : List (Nat × K × V)) = [] := by
  rw [tieTop, if_neg hc]
  have hsd : sortD ([] : List (Nat × K × V)) = [] := rfl
  rw [hsd, List.getElem?_nil]

/-- On any map satisfying the two tree invariants, `search_nearest` returns
(up to order) the tie-complete top-`count` of all stored entries by distance,
sorted ascending. -/
theorem search_nearest_spec {K V : Type} (d : K → K → Nat)
    (hsymm : ∀ x y, d x y = d y x)
    (htri : ∀ x y z, d x z ≤ d x y + d y z)
    (q : K) (count : Nat) (m : BKMap K V)
    (hs : m.SortedInv) (hr : m.RouteInv d) :
    (BKMap.search_nearest d q count m).Perm (bruteNearest d q count m) ∧
    ((BKMap.search_nearest d q count m).Pairwise fun a b => a.1 ≤ b.1) := by
  by_cases hc : count = 0
  · subst hc
    rw [BKMap.search_nearest, if_pos rfl, bruteNearest, tieTop, if_pos rfl]
    exact ⟨List.Perm.refl _, List.Pairwise.nil⟩
  · rw [BKMap.search_nearest, if_neg hc]
    cases m with
    | none =>
      have h1 : ((Option.toList (none : Option (BKNode K V))).map
          fun n => ((0 : Nat), n)) = [] := rfl
      rw [h1, nearLoop_nil]
      have h2 : bruteNearest d q count (none : BKMap K V)
          = tieTop count [] := rfl
      rw [h2, tieTop_nil hc]
      exact ⟨List.Perm.refl _, List.Pairwise.nil⟩
    | some root =>
      have h1 : ((Option.toList (some root)).map fun n => ((0 : Nat), n))
          = [(0, root)] := rfl
      rw [h1]
      have hb0 : ([] : List (Nat × K × V))[count - 1]? = none :=
        List.getElem?_nil
      rw [nearLoop_cons_none d q count 0 root [] [] hb0]
      have hS1 := truncStep_insort_spec count hc
        (d q root.key, root.key, root.value) [] List.Pairwise.nil
        (by intro b hb e he; cases he) (Or.inl hb0)
      obtain ⟨hs2, hcl2, hR2⟩ := hS1
      have hRB : ∀ p ∈ (root.children.map
          fun c => (d q root.key, c)).reverse ++ [],
          p.2.SortedInv ∧ p.2.RouteInv d ∧
          ∀ y ∈ p.2.toList, natAbsDiff p.2.dist p.1 ≤ d q y.1 := by
        intro p hp
        rw [List.append_nil, List.mem_reverse] at hp
        obtain ⟨c, hcm, rfl⟩ := List.mem_map.mp hp
        exact ⟨BKNode.sortedInv_child hs hcm, BKNode.routeInv_child hr hcm,
          child_refBound d hsymm htri q hr hcm⟩
      obtain ⟨hIH1, hIH2⟩ := nearLoop_perm_aux d hsymm htri q count hc
        (stackLenN ((root.children.map
          fun c => (d q root.key, c)).reverse ++ []))
        _ _ (le_refl _) hRB hs2 hcl2
      refine ⟨?_, hIH2⟩
      refine hIH1.trans ?_
      have hSE : (stackEntries d q ((root.children.map
          fun c => (d q root.key, c)).reverse ++ [])).Perm
          ((toListList root.children).map fun p => (d q p.1, p.1, p.2)) := by
        rw [List.append_nil]
        refine (stackEntries_perm d q (List.reverse_perm _)).trans ?_
        rw [stackEntries_push]
      refine (tieTop_congr count (hSE.append_left _)).trans ?_
      refine (tieTop_congr count (hR2.append_right _)).trans ?_
      refine (tieTop_absorb count _ _).trans ?_
      have hfin : bruteNearest d q count (some root)
          = tieTop count (nodeEntries d q root) := rfl
      rw [hfin, nodeEntries_eq]
      apply tieTop_congr
      simp only [List.nil_append, List.cons_append]
      exact List.Perm.refl _

/-- Claim C6: for a symmetric metric satisfying the triangle inequality and
any sequence of insertions, `search_nearest(q, count)` equals (as a set with
multiplicity) the brute-force tie-complete `count` smallest-distance stored
entries — never discarding an entry tied with the `count`-th smallest
distance, and returning everything when fewer than `count` entries exist —
its output is sorted ascending by distance, and `count = 0` returns the
empty list. -/
theorem claim_C6_nearest_tie_complete {K V : Type} (d : K → K → Nat)
    (hsymm : ∀ x y, d x y = d y x)
    (htri : ∀ x y z, d x z ≤ d x y + d y z)
    (ops : List (K × V × (V → Option V → V))) (q : K) (count : Nat) :
    (BKMap.search_nearest d q count
        (applyOps d ops (none : BKMap K V))).Perm
      (bruteNearest d q count (applyOps d ops (none : BKMap K V))) ∧
    ((BKMap.search_nearest d q count
        (applyOps d ops (none : BKMap K V))).Pairwise
      fun a b => a.1 ≤ b.1) ∧
    BKMap.search_nearest d q 0 (applyOps d ops (none : BKMap K V)) = [] := by
  have hs := applyOps_sortedInv d ops (none : BKMap K V) trivial
  have hr := applyOps_routeInv d ops (none : BKMap K V) trivial
  obtain ⟨h1, h2⟩ := search_nearest_spec d hsymm htri q count _ hs hr
  exact ⟨h1, h2, by rw [BKMap.search_nearest, if_pos rfl]⟩

def witMetric : Fin 4 → Fin 4 → Nat := fun a b => (a.1 - b.1) + (b.1 - a.1)

def witOps6 : List (Fin 4 × Nat × (Nat → Option Nat → Nat)) :=
  [(0, 10, fun v _ => v), (3, 30, fun v _ => v), (1, 11, fun v _ => v)]

/-- Witness for claim C6: a concrete metric on `Fin 4`, three concrete
insertions, `count = 2`. -/
theorem claim_C6_witness :
    (∀ x y, witMetric x y = witMetric y x) ∧
    (∀ x y z, witMetric x z ≤ witMetric x y + witMetric y z) ∧
    ((BKMap.search_nearest witMetric 2 2
        (applyOps witMetric witOps6 (none : BKMap (Fin 4) Nat))).Perm
      (bruteNearest witMetric 2 2
        (applyOps witMetric witOps6 (none : BKMap (Fin 4) Nat))) ∧
    ((BKMap.search_nearest witMetric 2 2
        (applyOps witMetric witOps6 (none : BKMap (Fin 4) Nat))).Pairwise
      fun a b => a.1 ≤ b.1) ∧
    BKMap.search_nearest witMetric 2 0
      (applyOps witMetric witOps6 (none : BKMap (Fin 4) Nat)) = []) :=
  ⟨by decide, by decide,
    claim_C6_nearest_tie_complete witMetric (by decide) (by decide)
      witOps6 2 2⟩
